import Mathlib

/-!
Wisc-Shell: a shallow embedding of `wisc-shell.c`.

A C string is modelled by the list of its characters before the terminating
NUL.  Singly linked alias nodes become a list whose head is the node that
`alias_list` points to.  Writes past the end of a fixed-size buffer and reads
through a null pointer have no defined result in C; the functions that can
perform them return `Option`, with `none` standing for such an execution.
-/

namespace WiscShell

/-- A C string: its characters up to, not including, the terminating NUL. -/
abbrev CStr := List Char

/-- The constant `MAX_LINE`. -/
def MAX_LINE : Nat := 512

/-- The constant `MAX_ARGS`. -/
def MAX_ARGS : Nat := 64

/-! ## Alias table -/

/-- One `struct AliasNode`; the `next` pointer is the tail of the list holding it. -/
structure AliasNode where
  name : CStr
  command : CStr
  deriving DecidableEq

/-- `createAliasNode`: a fresh node holding copies of both strings. -/
def createAliasNode (name command : CStr) : AliasNode :=
  { name := name, command := command }

/-- The `while` loop of `addOrUpdateAlias`: walk the nodes from `current`; at the
first node whose name compares equal, replace its command and stop (`some`);
`none` when the walk reaches `NULL`. -/
def addOrUpdateAlias_loop : List AliasNode → CStr → CStr → Option (List AliasNode)
  | [], _, _ => none
  | current :: next, name, command =>
    if current.name = name then
      some ({ current with command := command } :: next)
    else
      (addOrUpdateAlias_loop next name command).map (fun rest => current :: rest)

/-- `addOrUpdateAlias`: update in place when the name exists, otherwise link a
new node in front of the head. -/
def addOrUpdateAlias (head : List AliasNode) (name command : CStr) : List AliasNode :=
  match addOrUpdateAlias_loop head name command with
  | some updated => updated
  | none => createAliasNode name command :: head

/-- `findAlias`: the command of the first node with that name, `none` for `NULL`. -/
def findAlias : List AliasNode → CStr → Option CStr
  | [], _ => none
  | current :: next, name =>
    if current.name = name then some current.command else findAlias next name

/-- The text written by `printf("%s='%s'\n", name, command)`. -/
def alias_line (name command : CStr) : CStr :=
  name ++ "='".toList ++ command ++ [Char.ofNat 39, Char.ofNat 10]

/-- The final `for` loop of `printAliases`: `stack` holds the nodes in list order
(`stack[0]` is the head) and the index runs from `j` down to `0`; called with the
number of indices still to visit. -/
def printAliases_loop (stack : List AliasNode) : Nat → List CStr
  | 0 => []
  | j + 1 =>
    (match stack[j]? with
      | some node => [alias_line node.name node.command]
      | none => []) ++ printAliases_loop stack j

/-- `printAliases`: count the nodes, copy them to `stack`, print from the last
index down to the first.  The result is the list of lines written to stdout. -/
def printAliases (head : List AliasNode) : List CStr :=
  printAliases_loop head head.length

/-- The table obtained from the empty one by a sequence of `addOrUpdateAlias`
calls, given as (name, command) pairs in call order. -/
def registerAll (regs : List (CStr × CStr)) : List AliasNode :=
  regs.foldl (fun head r => addOrUpdateAlias head r.1 r.2) []

/-! ## Tokenizer -/

/-- One call of the library function `strtok` with the one-character delimiter
set `delim`, resumed at the text `s`: skip leading delimiters; `none` (a `NULL`
result) when nothing is left; otherwise the token that runs up to the next
delimiter, together with the text at which the next call resumes (just past
that delimiter, which `strtok` overwrites with NUL, or the end of the text). -/
def strtok (delim : Char) (s : CStr) : Option (CStr × CStr) :=
  let start := s.dropWhile (fun c => c == delim)
  if start = [] then none
  else some (start.takeWhile (fun c => c != delim),
             (start.dropWhile (fun c => c != delim)).drop 1)

/-- The `while` loop of `parse_command` together with the store
`argv[count] = NULL` that follows it.  `free` is the number of slots of the
`MAX_ARGS`-slot array not yet written (`MAX_ARGS - count`), `token` the latest
result of `strtok`, `argv` the tokens stored so far.  A store with no free slot
left writes past the end of the array: `none`. -/
def parse_command_loop : Nat → Option (CStr × CStr) → List CStr → Option (List CStr)
  | 0, _, _ => none
  | _ + 1, none, argv => some argv
  | free + 1, some (token, saved), argv =>
    parse_command_loop free (strtok ' ' saved) (argv ++ [token])

/-- `parse_command`: the tokens stored in `argv[0 .. count-1]`; `*arg_count` is
the length of the list. -/
def parse_command (cmd : CStr) : Option (List CStr) :=
  parse_command_loop MAX_ARGS (strtok ' ' cmd) []

/-- The maximal substrings of `line` that contain no space character, from left
to right: split at every space and drop the empty pieces. -/
def space_free_runs (line : CStr) : List CStr :=
  (line.splitOn ' ').filter (fun piece => piece ≠ [])

/-! ## Environment -/

/-- The process environment as a mapping from variable names to values, kept as
a list of (name, value) pairs; the first pair with a name is its binding.  A
pair stands for the string `name=value` of `environ`, split at its first `=`,
so a name contains no `=`. -/
abbrev Env := List (CStr × CStr)

/-- The value bound to a variable name, `none` when the name is unbound; the
empty text is no name and is never bound.  This is what the library function
`getenv` returns for a name without `=`; the call itself, for any text, is
`libc_getenv`. -/
def getenv : Env → CStr → Option CStr
  | [], _ => none
  | (n, v) :: rest, name =>
    if n = name ∧ name ≠ [] then some v else getenv rest name

/-- How the C library's `getenv` answers a text that reaches past a name.  It
scans `environ` for the first string `name=value` that starts with the text
followed by `=`, and returns what comes after that `=`; so a text `name=p` is
answered by the first entry with that name whose value starts with `p=`, and
the answer is what follows `p=` in the value. -/
def getenv_inside : Env → CStr → Option CStr
  | [], _ => none
  | (n, v) :: rest, text =>
    if (n ++ ['=']).isPrefixOf text ∧ (text.drop (n.length + 1) ++ ['=']).isPrefixOf v then
      some (v.drop (text.length - n.length))
    else getenv_inside rest text

/-- Library function `getenv` as the program calls it, on any text: `NULL`
(`none`) for the empty text, otherwise what follows `=` in the first string
`name=value` of `environ` that starts with the text followed by `=`.  For a
text without `=` that string is the binding of the name; for a text with `=`
it is found by `getenv_inside`. -/
def libc_getenv (env : Env) (text : CStr) : Option CStr :=
  match getenv env text with
  | some value => some value
  | none => getenv_inside env text

/-- Library function `unsetenv`: fails (`false`) on an empty name or one that
contains `=`; otherwise removes every entry with that name and succeeds. -/
def unsetenv (env : Env) (name : CStr) : Env × Bool :=
  if name = [] ∨ '=' ∈ name then (env, false)
  else (env.filter (fun entry => entry.1 ≠ name), true)

/-- Library function `setenv` with a non-zero `overwrite` argument: fails,
changing nothing, on an empty name or one that contains `=`; otherwise the
name is bound to the value and no other entry with that name remains. -/
def setenv (env : Env) (name value : CStr) : Env :=
  if name = [] ∨ '=' ∈ name then env
  else (name, value) :: env.filter (fun entry => entry.1 ≠ name)

/-- `set_environment_variable`. -/
def set_environment_variable (env : Env) (var value : CStr) : Env :=
  setenv env var value

/-- `substitute_environment_variables`: each argument whose first character is
`$` is replaced by a copy of what `getenv` returns for the rest of it, or of
the empty string when `getenv` returns `NULL`.  The rest is first copied into
`var_name[MAX_LINE]`; a text of `MAX_LINE` or more characters does not fit
together with its NUL: `none`. -/
def substitute_environment_variables (env : Env) : List CStr → Option (List CStr)
  | [] => some []
  | arg :: rest =>
    match arg with
    | '$' :: var_name =>
      if var_name.length < MAX_LINE then
        (substitute_environment_variables env rest).map
          (fun done => (libc_getenv env var_name).getD [] :: done)
      else none
    | _ => (substitute_environment_variables env rest).map (fun done => arg :: done)

/-- What one pass of the loop of `substitute_environment_variables` leaves in
`argv[i]` when the copy into `var_name` fits. -/
def substituted_arg (env : Env) (arg : CStr) : CStr :=
  match arg with
  | '$' :: var_name => (libc_getenv env var_name).getD []
  | _ => arg

/-- The expansion the specification prescribes for one token: a token whose first
character is `$` becomes the value of the variable named by the rest, or the
empty string when that variable is unset; any other token is kept. -/
def expand_token (env : Env) (token : CStr) : CStr :=
  match token with
  | '$' :: name => (getenv env name).getD []
  | _ => token

/-! ## Shell state and builtins -/

/-- The interpreter's state: the global `alias_list`, the process environment,
and the text written so far to stdout and to stderr (one entry per `printf` /
`fprintf` call, oldest first). -/
structure Shell where
  alias_list : List AliasNode
  env : Env
  out : List CStr
  err : List CStr
  deriving DecidableEq

/-- Library function `strcat` into a destination buffer of `cap` bytes holding
`dest`: the result needs room for its characters and the NUL. -/
def strcat (cap : Nat) (dest src : CStr) : Option CStr :=
  if dest.length + src.length < cap then some (dest ++ src) else none

/-- The first `for` loop of `handle_alias`: `len += strlen(argv[i]) + 1`. -/
def handle_alias_len : List CStr → Nat → Nat
  | [], len => len
  | arg :: rest, len => handle_alias_len rest (len + (arg.length + 1))

/-- The second `for` loop of `handle_alias`, writing into the `len`-byte buffer
`command`: append each remaining argument, then a space unless it is the last. -/
def handle_alias_join (len : Nat) : List CStr → CStr → Option CStr
  | [], command => some command
  | [arg], command => strcat len command arg
  | arg :: next :: rest, command =>
    match strcat len command arg with
    | none => none
    | some joined =>
      match strcat len joined [' '] with
      | none => none
      | some spaced => handle_alias_join len (next :: rest) spaced

/-- `handle_alias`, called with `argv[0 .. arg_count-1]`. -/
def handle_alias (sh : Shell) (argv : List CStr) : Option Shell :=
  match argv with
  | [] => none
  | [_] => some { sh with out := sh.out ++ printAliases sh.alias_list }
  | [_, name] =>
    match findAlias sh.alias_list name with
    | some alias_command => some { sh with out := sh.out ++ [alias_line name alias_command] }
    | none => some { sh with err := sh.err ++ ["Error: alias not found\n".toList] }
  | _ :: name :: words =>
    match handle_alias_join (handle_alias_len words 0) words [] with
    | none => none
    | some command =>
      some { sh with alias_list := addOrUpdateAlias sh.alias_list name command }

/-- `handle_export`. -/
def handle_export (sh : Shell) (argv : List CStr) : Shell :=
  match argv with
  | [_, assignment] =>
    match strtok '=' assignment with
    | none => { sh with err := sh.err ++ ["Error: invalid export format\n".toList] }
    | some (var, saved) =>
      match strtok '=' saved with
      | none => { sh with err := sh.err ++ ["Error: invalid export format\n".toList] }
      | some (value, _) => { sh with env := set_environment_variable sh.env var value }
  | _ => { sh with err := sh.err ++ ["Error: invalid export format\n".toList] }

/-- The `for` loop of `handle_unset`: the environment and the `error` flag. -/
def handle_unset_loop : List CStr → Env → Bool → Env × Bool
  | [], env, error => (env, error)
  | arg :: rest, env, error =>
    let r := unsetenv env arg
    handle_unset_loop rest r.1 (if r.2 then error else true)

/-- `handle_unset`. -/
def handle_unset (sh : Shell) (argv : List CStr) : Shell :=
  match argv with
  | _ :: arg :: rest =>
    let r := handle_unset_loop (arg :: rest) sh.env false
    if r.2 then
      { sh with env := r.1,
                err := sh.err ++ ["unset: environment variable not present\n".toList] }
    else { sh with env := r.1 }
  | _ => { sh with err := sh.err ++ ["Error: invalid unset format\n".toList] }

/-! ## execute_command -/

/-- What the operating system answers: whether
`open(path, O_WRONLY | O_CREAT | O_TRUNC, S_IRUSR | S_IWUSR)` succeeds, and
whether `fork` does. -/
structure OS where
  open_ok : CStr → Bool
  fork_ok : Bool

/-- How one call of `execute_command` ends. -/
inductive Outcome where
  /-- A builtin handler ran; no `fork`. -/
  | builtin
  /-- "Redirection error" was reported; returned before `fork`. -/
  | redirection_error
  /-- `fork` was called and failed. -/
  | fork_failed
  /-- `fork` succeeded: the child calls `execvp(argv[0], argv)` on the vector
  `argv` (up to its first `NULL`), stdout redirected to `redir` when present. -/
  | spawned (argv : List CStr) (redir : Option CStr)
  deriving DecidableEq

/-- The loop that builds `full_cmd[MAX_LINE]` from the remaining arguments:
`strcat(full_cmd, " "); strcat(full_cmd, argv[i]);`. -/
def full_cmd_loop : List CStr → CStr → Option CStr
  | [], full_cmd => some full_cmd
  | arg :: rest, full_cmd =>
    match strcat MAX_LINE full_cmd [' '] with
    | none => none
    | some spaced =>
      match strcat MAX_LINE spaced arg with
      | none => none
      | some joined => full_cmd_loop rest joined

/-- Lines 205-223 of `execute_command`: look `argv[0]` up once; on a miss keep
the vector; on a hit build `full_cmd`, parse it again and substitute again. -/
def alias_substitution (env : Env) (alias_list : List AliasNode)
    (arg0 : CStr) (args : List CStr) : Option (List CStr) :=
  match findAlias alias_list arg0 with
  | none => some (arg0 :: args)
  | some alias_command =>
    match strcat MAX_LINE [] alias_command with
    | none => none
    | some started =>
      match full_cmd_loop args started with
      | none => none
      | some full_cmd =>
        match parse_command full_cmd with
        | none => none
        | some argv => substitute_environment_variables env argv

/-- Result of the redirection scan. -/
inductive Redirection where
  /-- "Redirection error": the invocation is abandoned. -/
  | error
  /-- The scan ended: the vector that `execvp` will see and the opened file. -/
  | proceed (argv : List CStr) (target : Option CStr)
  deriving DecidableEq

/-- The redirection `for` loop of `execute_command`: `before` are the arguments
at indices below `i`, the second list those from index `i` on. -/
def resolve_redirection_loop (open_ok : CStr → Bool) :
    List CStr → List CStr → Redirection
  | before, [] => Redirection.proceed before none
  | before, arg :: rest =>
    if arg = ">".toList then
      match rest with
      | path :: _ => if open_ok path then Redirection.proceed before (some path)
                     else Redirection.error
      | [] => Redirection.error
    else resolve_redirection_loop open_ok (before ++ [arg]) rest

/-- Lines 225-245 of `execute_command`. -/
def resolve_redirection (open_ok : CStr → Bool) (argv : List CStr) : Redirection :=
  resolve_redirection_loop open_ok [] argv

/-- `execute_command`.  `strcmp(argv[0], "alias")` reads through `argv[0]`, which
is `NULL` when there is no token: `none`. -/
def execute_command (os : OS) (sh : Shell) (cmd : CStr) : Option (Shell × Outcome) :=
  match parse_command cmd with
  | none => none
  | some parsed =>
    match substitute_environment_variables sh.env parsed with
    | none => none
    | some [] => none
    | some (arg0 :: args) =>
      if arg0 = "alias".toList then
        (handle_alias sh (arg0 :: args)).map (fun sh1 => (sh1, Outcome.builtin))
      else if arg0 = "export".toList then
        some (handle_export sh (arg0 :: args), Outcome.builtin)
      else if arg0 = "unset".toList then
        some (handle_unset sh (arg0 :: args), Outcome.builtin)
      else
        match alias_substitution sh.env sh.alias_list arg0 args with
        | none => none
        | some argv =>
          match resolve_redirection os.open_ok argv with
          | Redirection.error =>
            some ({ sh with err := sh.err ++ ["Redirection error\n".toList] },
                  Outcome.redirection_error)
          | Redirection.proceed final target =>
            if os.fork_ok then some (sh, Outcome.spawned final target)
            else some ({ sh with err := sh.err ++ ["Error: fork failed\n".toList] },
                       Outcome.fork_failed)

/-! ## main -/

/-- Library function `isspace` in the C locale: space, tab, newline, vertical
tab, form feed, carriage return. -/
def isspace (c : Char) : Bool :=
  c = ' ' ∨ (9 ≤ c.toNat ∧ c.toNat ≤ 13)

/-- The reading done by one `fgets` call that may still store `room`
characters: characters are taken up to and including the first newline, or
until the room or the input is used up.  Returns what was read and what is
left unread. -/
def fgets_scan : Nat → CStr → CStr × CStr
  | 0, input => ([], input)
  | _ + 1, [] => ([], [])
  | room + 1, c :: rest =>
    if c = Char.ofNat 10 then ([c], rest)
    else (c :: (fgets_scan room rest).1, (fgets_scan room rest).2)

/-- Library function `fgets(line, size, input)` on the unread text `input`:
`none` (a `NULL` result) at end of input, otherwise at most `size - 1`
characters, ending after a newline if one is met. -/
def fgets (size : Nat) (input : CStr) : Option (CStr × CStr) :=
  if input = [] then none else some (fgets_scan (size - 1) input)

/-- How a run of `main` ends. -/
inductive Termination where
  /-- The process ended with this exit status. -/
  | exited (status : Nat)
  /-- A call of `execute_command` had no defined result. -/
  | undefined
  deriving DecidableEq

/-- What a run of `main` leaves behind: the interpreter state, the outcomes of
the `execute_command` calls in order, and how the run ended. -/
structure MainResult where
  sh : Shell
  trace : List Outcome
  how : Termination
  deriving DecidableEq

/-- The `while (1)` loop of `main` reading from `input`.  Every iteration that
does not leave the loop consumes at least one character of `input`; `fuel`
bounds the number of iterations and `none` means only that it ran out. -/
def main_loop (os : OS) (interactive : Bool) :
    Nat → CStr → Shell → List Outcome → Option MainResult
  | 0, _, _, _ => none
  | fuel + 1, input, sh, trace =>
    let prompted : Shell :=
      if interactive then { sh with out := sh.out ++ ["wish> ".toList] } else sh
    match fgets MAX_LINE input with
    | none => some { sh := prompted, trace := trace, how := Termination.exited 0 }
    | some (read, unread) =>
      let line := read.takeWhile (fun c => c != Char.ofNat 10)
      let echoed : Shell :=
        if interactive then prompted
        else { prompted with out := prompted.out ++ [line ++ [Char.ofNat 10]] }
      let trimmed_line := line.dropWhile isspace
      if trimmed_line = [] then main_loop os interactive fuel unread echoed trace
      else if trimmed_line = "exit".toList then
        some { sh := echoed, trace := trace, how := Termination.exited 0 }
      else
        match execute_command os echoed trimmed_line with
        | none => some { sh := echoed, trace := trace, how := Termination.undefined }
        | some (sh1, outcome) =>
          main_loop os interactive fuel unread sh1 (trace ++ [outcome])

/-- `main`, called with the arguments `args` after the program name (so
`argc = args.length + 1`), the text on standard input, the environment the
process starts with, and `fopen_r`, which gives the contents of a file that
`fopen(path, "r")` can open and `none` for one it cannot. -/
def main (os : OS) (fopen_r : CStr → Option CStr) (stdin : CStr) (env : Env)
    (args : List CStr) : Option MainResult :=
  match args with
  | [file] =>
    match fopen_r file with
    | none =>
      some { sh := { alias_list := [], env := env, out := [],
                     err := ["Error: could not open batch file\n".toList] },
             trace := [], how := Termination.exited 1 }
    | some content =>
      main_loop os false (content.length + 1) content
        { alias_list := [], env := env, out := [], err := [] } []
  | _ =>
    main_loop os true (stdin.length + 1) stdin
      { alias_list := [], env := env, out := [], err := [] } []

/-! ## Alias table: lemmas -/

theorem addOrUpdateAlias_loop_none_iff (head : List AliasNode) (name command : CStr) :
    addOrUpdateAlias_loop head name command = none ↔ name ∉ head.map AliasNode.name := by
  induction head with
  | nil => simp [addOrUpdateAlias_loop]
  | cons cur next ih =>
    by_cases h : cur.name = name
    · simp [addOrUpdateAlias_loop, h]
    · have h2 : ¬ name = cur.name := fun e => h e.symm
      simp [addOrUpdateAlias_loop, h, h2, ih]

theorem addOrUpdateAlias_loop_names (head : List AliasNode) (name command : CStr)
    (updated : List AliasNode) (h : addOrUpdateAlias_loop head name command = some updated) :
    updated.map AliasNode.name = head.map AliasNode.name := by
  induction head generalizing updated with
  | nil => simp [addOrUpdateAlias_loop] at h
  | cons cur next ih =>
    by_cases hc : cur.name = name
    · simp [addOrUpdateAlias_loop, hc] at h
      subst h
      simp [hc]
    · simp [addOrUpdateAlias_loop, hc] at h
      obtain ⟨rest, hrest, rfl⟩ := h
      simp [ih rest hrest]

theorem addOrUpdateAlias_absent (head : List AliasNode) (name command : CStr)
    (h : name ∉ head.map AliasNode.name) :
    addOrUpdateAlias head name command = createAliasNode name command :: head := by
  have := (addOrUpdateAlias_loop_none_iff head name command).2 h
  simp [addOrUpdateAlias, this]

theorem addOrUpdateAlias_present_names (head : List AliasNode) (name command : CStr)
    (h : name ∈ head.map AliasNode.name) :
    (addOrUpdateAlias head name command).map AliasNode.name = head.map AliasNode.name := by
  cases hl : addOrUpdateAlias_loop head name command with
  | none => exact absurd h ((addOrUpdateAlias_loop_none_iff head name command).1 hl)
  | some updated =>
    simp only [addOrUpdateAlias, hl]
    exact addOrUpdateAlias_loop_names head name command updated hl

theorem findAlias_loop_same (head : List AliasNode) (name command : CStr)
    (updated : List AliasNode) (h : addOrUpdateAlias_loop head name command = some updated) :
    findAlias updated name = some command := by
  induction head generalizing updated with
  | nil => simp [addOrUpdateAlias_loop] at h
  | cons cur next ih =>
    by_cases hc : cur.name = name
    · simp [addOrUpdateAlias_loop, hc] at h
      subst h
      simp [findAlias, hc]
    · simp [addOrUpdateAlias_loop, hc] at h
      obtain ⟨rest, hrest, rfl⟩ := h
      simp [findAlias, hc, ih rest hrest]

theorem findAlias_loop_other (head : List AliasNode) (name command other : CStr)
    (hne : other ≠ name)
    (updated : List AliasNode) (h : addOrUpdateAlias_loop head name command = some updated) :
    findAlias updated other = findAlias head other := by
  induction head generalizing updated with
  | nil => simp [addOrUpdateAlias_loop] at h
  | cons cur next ih =>
    by_cases hc : cur.name = name
    · simp [addOrUpdateAlias_loop, hc] at h
      subst h
      have : ¬ name = other := fun e => hne e.symm
      simp [findAlias, hc, this]
    · simp [addOrUpdateAlias_loop, hc] at h
      obtain ⟨rest, hrest, rfl⟩ := h
      simp [findAlias, ih rest hrest]

theorem findAlias_addOrUpdateAlias_same (head : List AliasNode) (name command : CStr) :
    findAlias (addOrUpdateAlias head name command) name = some command := by
  cases hl : addOrUpdateAlias_loop head name command with
  | none => simp [addOrUpdateAlias, hl, findAlias, createAliasNode]
  | some updated =>
    simp only [addOrUpdateAlias, hl]
    exact findAlias_loop_same head name command updated hl

theorem findAlias_addOrUpdateAlias_other (head : List AliasNode) (name command other : CStr)
    (hne : other ≠ name) :
    findAlias (addOrUpdateAlias head name command) other = findAlias head other := by
  cases hl : addOrUpdateAlias_loop head name command with
  | none =>
    have : ¬ name = other := fun e => hne e.symm
    simp [addOrUpdateAlias, hl, findAlias, createAliasNode, this]
  | some updated =>
    simp only [addOrUpdateAlias, hl]
    exact findAlias_loop_other head name command other hne updated hl

theorem findAlias_eq_none_iff (head : List AliasNode) (name : CStr) :
    findAlias head name = none ↔ name ∉ head.map AliasNode.name := by
  induction head with
  | nil => simp [findAlias]
  | cons cur next ih =>
    by_cases hc : cur.name = name
    · simp [findAlias, hc]
    · have : ¬ name = cur.name := fun e => hc e.symm
      simp [findAlias, hc, ih, this]

theorem registerAll_snoc (regs : List (CStr × CStr)) (r : CStr × CStr) :
    registerAll (regs ++ [r]) = addOrUpdateAlias (registerAll regs) r.1 r.2 := by
  simp [registerAll, List.foldl_append]

theorem registerAll_append (pre post : List (CStr × CStr)) :
    registerAll (pre ++ post)
      = post.foldl (fun head r => addOrUpdateAlias head r.1 r.2) (registerAll pre) := by
  simp [registerAll, List.foldl_append]

theorem findAlias_foldl_other (post : List (CStr × CStr)) (head : List AliasNode) (name : CStr)
    (h : name ∉ post.map Prod.fst) :
    findAlias (post.foldl (fun head r => addOrUpdateAlias head r.1 r.2) head) name
      = findAlias head name := by
  induction post generalizing head with
  | nil => rfl
  | cons r rest ih =>
    simp only [List.map_cons, List.mem_cons, not_or] at h
    simp only [List.foldl_cons]
    rw [ih _ h.2, findAlias_addOrUpdateAlias_other _ _ _ _ h.1]

theorem registerAll_names_mem (regs : List (CStr × CStr)) :
    ∀ name : CStr, name ∈ (registerAll regs).map AliasNode.name ↔ name ∈ regs.map Prod.fst := by
  induction regs using List.reverseRecOn with
  | nil => simp [registerAll]
  | append_singleton regs r ih =>
    intro name
    rw [registerAll_snoc]
    by_cases hp : r.1 ∈ (registerAll regs).map AliasNode.name
    · rw [addOrUpdateAlias_present_names _ _ _ hp, ih]
      have hr : r.1 ∈ regs.map Prod.fst := (ih r.1).1 hp
      simp only [List.map_append, List.mem_append, List.map_cons, List.map_nil,
        List.mem_singleton]
      constructor
      · exact fun h => Or.inl h
      · rintro (h | h)
        · exact h
        · exact h ▸ hr
    · rw [addOrUpdateAlias_absent _ _ _ hp]
      simp only [List.map_cons, List.mem_cons, createAliasNode, List.map_append, List.mem_append,
        List.map_nil, List.mem_singleton, ih]
      tauto


theorem registerAll_names_nodup (regs : List (CStr × CStr)) :
    ((registerAll regs).map AliasNode.name).Nodup := by
  induction regs using List.reverseRecOn with
  | nil => simp [registerAll]
  | append_singleton regs r ih =>
    rw [registerAll_snoc]
    by_cases hp : r.1 ∈ (registerAll regs).map AliasNode.name
    · rw [addOrUpdateAlias_present_names _ _ _ hp]
      exact ih
    · rw [addOrUpdateAlias_absent _ _ _ hp]
      simp only [List.map_cons, createAliasNode]
      exact List.nodup_cons.2 ⟨hp, ih⟩

theorem addOrUpdateAlias_loop_in_place (head : List AliasNode) (name command : CStr)
    (updated : List AliasNode) (h : addOrUpdateAlias_loop head name command = some updated) :
    ∃ before old after, head = before ++ old :: after ∧ old.name = name ∧
      name ∉ before.map AliasNode.name ∧
      updated = before ++ { name := name, command := command } :: after := by
  induction head generalizing updated with
  | nil => simp [addOrUpdateAlias_loop] at h
  | cons cur next ih =>
    by_cases hc : cur.name = name
    · simp only [addOrUpdateAlias_loop, hc, if_true, Option.some.injEq] at h
      refine ⟨[], cur, next, rfl, hc, by simp, ?_⟩
      rw [← h, ← hc]
      rfl
    · simp [addOrUpdateAlias_loop, hc] at h
      obtain ⟨rest, hrest, rfl⟩ := h
      obtain ⟨before, old, after, h1, h2, h3, h4⟩ := ih rest hrest
      refine ⟨cur :: before, old, after, by simp [h1], h2, ?_, by simp [h4]⟩
      have : ¬ name = cur.name := fun e => hc e.symm
      simpa [this] using h3

theorem printAliases_loop_eq (stack : List AliasNode) (j : Nat) :
    printAliases_loop stack j
      = ((stack.take j).reverse).map (fun node => alias_line node.name node.command) := by
  induction j with
  | zero => simp [printAliases_loop]
  | succ j ih =>
    rw [printAliases_loop, ih, List.take_succ]
    cases hj : stack[j]? with
    | none => simp
    | some node => simp

theorem printAliases_eq (head : List AliasNode) :
    printAliases head = head.reverse.map (fun node => alias_line node.name node.command) := by
  simp [printAliases, printAliases_loop_eq]

theorem registerAll_distinct (regs : List (CStr × CStr)) (h : (regs.map Prod.fst).Nodup) :
    registerAll regs = (regs.map (fun r => createAliasNode r.1 r.2)).reverse := by
  induction regs using List.reverseRecOn with
  | nil => simp [registerAll]
  | append_singleton regs r ih =>
    rw [List.map_append, List.nodup_append] at h
    obtain ⟨h1, _, h3⟩ := h
    have hr : r.1 ∉ regs.map Prod.fst := fun hm => h3 hm (by simp)
    have hr2 : r.1 ∉ (registerAll regs).map AliasNode.name :=
      fun hm => hr ((registerAll_names_mem regs r.1).1 hm)
    rw [registerAll_snoc, addOrUpdateAlias_absent _ _ _ hr2, ih h1]
    simp

/-! ## Tokenizer: lemmas -/

theorem space_free_runs_nil : space_free_runs [] = [] := by
  simp [space_free_runs, List.splitOn]

theorem space_free_runs_cons_space (s : CStr) :
    space_free_runs (' ' :: s) = space_free_runs s := by
  simp [space_free_runs, List.splitOn, List.splitOnP_cons]

theorem space_free_runs_single (t : CStr) (hne : t ≠ []) (hsp : ∀ c ∈ t, c ≠ ' ') :
    space_free_runs t = [t] := by
  have h : List.splitOnP (fun c => c == ' ') t = [t] :=
    List.splitOnP_eq_single _ _ (fun x hx => by simpa using hsp x hx)
  simp [space_free_runs, List.splitOn, h, hne]

theorem space_free_runs_token (t r : CStr) (hne : t ≠ []) (hsp : ∀ c ∈ t, c ≠ ' ') :
    space_free_runs (t ++ ' ' :: r) = t :: space_free_runs r := by
  have h : List.splitOnP (fun c => c == ' ') (t ++ ' ' :: r)
      = t :: List.splitOnP (fun c => c == ' ') r :=
    List.splitOnP_first _ _ (fun x hx => by simpa using hsp x hx) ' ' (by simp) r
  simp [space_free_runs, List.splitOn, h, hne]

theorem space_free_runs_dropWhile (s : CStr) :
    space_free_runs (s.dropWhile (fun c => c == ' ')) = space_free_runs s := by
  induction s with
  | nil => rfl
  | cons c s ih =>
    by_cases hc : c = ' '
    · subst hc
      simp only [List.dropWhile_cons, beq_self_eq_true, if_true]
      rw [ih, space_free_runs_cons_space]
    · simp [List.dropWhile_cons, hc]

theorem dropWhile_ne_head (delim : Char) (s : CStr) :
    s.dropWhile (fun c => c != delim) = [] ∨
    ∃ r, s.dropWhile (fun c => c != delim) = delim :: r := by
  induction s with
  | nil => simp
  | cons c s ih =>
    by_cases hc : c = delim
    · right; exact ⟨s, by simp [List.dropWhile_cons, hc]⟩
    · simpa [List.dropWhile_cons, hc] using ih

theorem takeWhile_ne_nil_of_start (delim : Char) (s : CStr)
    (h : s.dropWhile (fun c => c == delim) ≠ []) :
    (s.dropWhile (fun c => c == delim)).takeWhile (fun c => c != delim) ≠ [] := by
  induction s with
  | nil => simp at h
  | cons c s ih =>
    by_cases hc : c = delim
    · simp only [List.dropWhile_cons, hc, beq_self_eq_true, if_true] at h ⊢
      exact ih h
    · simp [List.dropWhile_cons, List.takeWhile_cons, hc]

theorem dropWhile_eq_length_le (p : Char → Bool) (s : CStr) :
    (s.dropWhile p).length ≤ s.length := by
  induction s with
  | nil => simp
  | cons c s ih =>
    rw [List.dropWhile_cons]
    split
    · exact Nat.le_succ_of_le ih
    · exact Nat.le_refl _

/-- What one `strtok` call on spaces yields, in terms of the space-free runs. -/
theorem strtok_space_runs (s : CStr) :
    (strtok ' ' s = none ∧ space_free_runs s = []) ∨
    (∃ t saved, strtok ' ' s = some (t, saved) ∧
        space_free_runs s = t :: space_free_runs saved ∧ saved.length < s.length) := by
  by_cases hstart : s.dropWhile (fun c => c == ' ') = []
  · left
    refine ⟨by simp [strtok, hstart], ?_⟩
    rw [← space_free_runs_dropWhile, hstart, space_free_runs_nil]
  · right
    refine ⟨(s.dropWhile (fun c => c == ' ')).takeWhile (fun c => c != ' '),
      ((s.dropWhile (fun c => c == ' ')).dropWhile (fun c => c != ' ')).drop 1,
      by simp only [strtok, hstart, if_false], ?_, ?_⟩
    · have hne := takeWhile_ne_nil_of_start ' ' s hstart
      have hsp : ∀ c ∈ (s.dropWhile (fun c => c == ' ')).takeWhile (fun c => c != ' '),
          c ≠ ' ' := by
        intro c hc
        simpa using List.mem_takeWhile_imp hc
      have hsplit := List.takeWhile_append_dropWhile (fun c => c != ' ')
        (s.dropWhile (fun c => c == ' '))
      rw [← space_free_runs_dropWhile s]
      rcases dropWhile_ne_head ' ' (s.dropWhile (fun c => c == ' ')) with hr | ⟨r, hr⟩
      · rw [hr] at hsplit ⊢
        rw [List.append_nil] at hsplit
        rw [List.drop_nil, space_free_runs_nil]
        conv_lhs => rw [← hsplit]
        exact space_free_runs_single _ hne hsp
      · rw [hr] at hsplit ⊢
        conv_lhs => rw [← hsplit]
        simpa using space_free_runs_token _ r hne hsp
    · have hne := takeWhile_ne_nil_of_start ' ' s hstart
      have hsplit := List.takeWhile_append_dropWhile (fun c => c != ' ')
        (s.dropWhile (fun c => c == ' '))
      have hlen := congrArg List.length hsplit
      rw [List.length_append] at hlen
      have h1 := dropWhile_eq_length_le (fun c => c == ' ') s
      have h2 : 0 < ((s.dropWhile (fun c => c == ' ')).takeWhile
          (fun c => c != ' ')).length := List.length_pos.2 hne
      have h3 : (((s.dropWhile (fun c => c == ' ')).dropWhile
          (fun c => c != ' ')).drop 1).length
          ≤ ((s.dropWhile (fun c => c == ' ')).dropWhile (fun c => c != ' ')).length := by
        simp
      omega

theorem parse_command_loop_eq (free : Nat) (s : CStr) (argv : List CStr) :
    parse_command_loop free (strtok ' ' s) argv
      = if (space_free_runs s).length < free then some (argv ++ space_free_runs s)
        else none := by
  induction free generalizing s argv with
  | zero => simp [parse_command_loop]
  | succ free ih =>
    rcases strtok_space_runs s with ⟨h1, h2⟩ | ⟨t, saved, h1, h2, _⟩
    · simp [h1, h2, parse_command_loop]
    · rw [h1, parse_command_loop, ih, h2]
      simp

theorem parse_command_eq (cmd : CStr) :
    parse_command cmd
      = if (space_free_runs cmd).length < MAX_ARGS then some (space_free_runs cmd)
        else none := by
  simp [parse_command, parse_command_loop_eq]

theorem space_free_runs_nonempty (line t : CStr) (h : t ∈ space_free_runs line) : t ≠ [] := by
  simp only [space_free_runs, List.mem_filter, decide_eq_true_eq] at h
  exact h.2

theorem splitOnP_space_free (s piece : CStr)
    (h : piece ∈ List.splitOnP (fun c => c == ' ') s) : ' ' ∉ piece := by
  induction s generalizing piece with
  | nil => simp [List.splitOnP_nil] at h; simp [h]
  | cons c s ih =>
    rw [List.splitOnP_cons] at h
    by_cases hc : c = ' '
    · simp only [hc, beq_self_eq_true, if_true, List.mem_cons] at h
      rcases h with h | h
      · simp [h]
      · exact ih piece h
    · have hc2 : (c == ' ') = false := by simpa using hc
      simp only [hc2, Bool.false_eq_true, if_false] at h
      cases hs : List.splitOnP (fun c => c == ' ') s with
      | nil => simp [hs, List.modifyHead] at h
      | cons first others =>
        simp only [hs, List.modifyHead, List.mem_cons] at h
        rcases h with h | h
        · subst h
          have := ih first (by simp [hs])
          simp only [List.mem_cons, not_or]
          exact ⟨fun e => hc e.symm, this⟩
        · exact ih piece (by simp [hs, h])

theorem space_free_runs_space_free (line t : CStr) (h : t ∈ space_free_runs line) :
    ' ' ∉ t := by
  simp only [space_free_runs, List.mem_filter, List.splitOn] at h
  exact splitOnP_space_free line t h.1

theorem space_free_runs_all_spaces (line : CStr) (h : ∀ c ∈ line, c = ' ') :
    space_free_runs line = [] := by
  induction line with
  | nil => exact space_free_runs_nil
  | cons c line ih =>
    have hc : c = ' ' := h c (by simp)
    subst hc
    rw [space_free_runs_cons_space]
    exact ih (fun c hc => h c (List.mem_cons_of_mem _ hc))

/-! ## Expansion, joining and redirection: lemmas -/

theorem libc_getenv_of_getenv (env : Env) (name value : CStr)
    (h : getenv env name = some value) : libc_getenv env name = some value := by
  simp only [libc_getenv, h]

theorem getenv_inside_no_equals (env : Env) (text : CStr) (h : '=' ∉ text) :
    getenv_inside env text = none := by
  induction env with
  | nil => rfl
  | cons entry rest ih =>
    obtain ⟨n, v⟩ := entry
    have hpre : ¬ ((n ++ ['=']).isPrefixOf text = true) := by
      intro hp
      have hsub : n ++ ['='] <+: text := List.isPrefixOf_iff_prefix.1 hp
      exact h (hsub.subset (by simp))
    simp [getenv_inside, hpre, ih]

/-- For a text without `=` the library call returns the binding of that name. -/
theorem libc_getenv_no_equals (env : Env) (text : CStr) (h : '=' ∉ text) :
    libc_getenv env text = getenv env text := by
  cases hg : getenv env text with
  | some value => simp only [libc_getenv, hg]
  | none => simp only [libc_getenv, hg, getenv_inside_no_equals env text h]

theorem substitute_environment_variables_eq (env : Env) (argv : List CStr)
    (h : ∀ token ∈ argv, ∀ name, token = '$' :: name → name.length < MAX_LINE) :
    substitute_environment_variables env argv = some (argv.map (substituted_arg env)) := by
  induction argv with
  | nil => rfl
  | cons arg rest ih =>
    have hrest := ih (fun token ht => h token (List.mem_cons_of_mem _ ht))
    match arg, h arg (List.mem_cons_self _ _) with
    | [], _ => simp [substitute_environment_variables, hrest, substituted_arg]
    | c :: name, harg =>
      by_cases hc : c = '$'
      · subst hc
        simp [substitute_environment_variables, hrest, substituted_arg, harg name rfl]
      · have e1 : substitute_environment_variables env ((c :: name) :: rest)
            = (substitute_environment_variables env rest).map
                (fun done => (c :: name) :: done) := by
          rw [substitute_environment_variables]
          exact fun var_name heq => hc (List.cons.inj heq).1
        have e2 : substituted_arg env (c :: name) = c :: name := by
          rw [substituted_arg]
          exact fun var_name heq => hc (List.cons.inj heq).1
        simp [e1, hrest, e2]

theorem substituted_arg_plain (env : Env) (token : CStr) (h : token.head? ≠ some '$') :
    substituted_arg env token = token := by
  match token, h with
  | [], _ => rfl
  | c :: rest, hc =>
    rw [substituted_arg]
    intro var_name heq
    apply hc
    simp [(List.cons.inj heq).1]

theorem map_substituted_arg_plain (env : Env) (tokens : List CStr)
    (h : ∀ t ∈ tokens, t.head? ≠ some '$') :
    tokens.map (substituted_arg env) = tokens := by
  induction tokens with
  | nil => rfl
  | cons t rest ih =>
    rw [List.map_cons, substituted_arg_plain env t (h t (List.mem_cons_self _ _)),
      ih (fun x hx => h x (List.mem_cons_of_mem _ hx))]

/-- On a token that is not a reference, or whose reference is a name without
`=`, the loop stores what the specification prescribes. -/
theorem substituted_arg_eq_expand_token (env : Env) (token : CStr)
    (h : token.head? = some '$' → '=' ∉ token) :
    substituted_arg env token = expand_token env token := by
  match token, h with
  | [], _ => rfl
  | c :: name, hc =>
    by_cases hd : c = '$'
    · subst hd
      have hname : '=' ∉ name := fun hm => hc rfl (List.mem_cons_of_mem _ hm)
      simp only [substituted_arg, expand_token, libc_getenv_no_equals env name hname]
    · have e1 : substituted_arg env (c :: name) = c :: name := by
        rw [substituted_arg]
        exact fun var_name heq => hd (List.cons.inj heq).1
      have e2 : expand_token env (c :: name) = c :: name := by
        rw [expand_token]
        exact fun var_name heq => hd (List.cons.inj heq).1
      rw [e1, e2]

/-- A reference of `MAX_LINE` or more characters after the `$` does not fit
`var_name`. -/
theorem substitute_long_reference (env : Env) (name : CStr) (rest : List CStr)
    (h : MAX_LINE ≤ name.length) :
    substitute_environment_variables env (('$' :: name) :: rest) = none := by
  have : ¬ name.length < MAX_LINE := Nat.not_lt.2 h
  simp only [substitute_environment_variables, this, if_false]

theorem intercalate_space_cons_cons (a b : CStr) (rest : List CStr) :
    List.intercalate [' '] (a :: b :: rest) = a ++ ' ' :: List.intercalate [' '] (b :: rest) := by
  simp [List.intercalate, List.intersperse]

theorem intercalate_space_single (a : CStr) : List.intercalate [' '] [a] = a := by
  simp [List.intercalate, List.intersperse]

theorem handle_alias_len_eq (words : List CStr) (len : Nat) :
    handle_alias_len words len = len + (words.map (fun w => w.length + 1)).sum := by
  induction words generalizing len with
  | nil => simp [handle_alias_len]
  | cons w rest ih => simp [handle_alias_len, ih]; omega

theorem handle_alias_join_eq (cap : Nat) (words : List CStr) (command : CStr)
    (hne : words ≠ [])
    (hcap : command.length + (words.map (fun w => w.length + 1)).sum ≤ cap) :
    handle_alias_join cap words command
      = some (command ++ List.intercalate [' '] words) := by
  induction words generalizing command with
  | nil => exact absurd rfl hne
  | cons w rest ih =>
    cases rest with
    | nil =>
      simp only [List.map_cons, List.map_nil, List.sum_cons, List.sum_nil] at hcap
      have : command.length + w.length < cap := by omega
      simp [handle_alias_join, strcat, this, intercalate_space_single]
    | cons next rest =>
      simp only [List.map_cons, List.sum_cons] at hcap
      have h1 : command.length + w.length < cap := by omega
      have h2 : (command ++ w).length + [' '].length < cap := by
        simp only [List.length_append, List.length_singleton]; omega
      have h3 : (command ++ w ++ [' ']).length
          + ((next :: rest).map (fun w => w.length + 1)).sum ≤ cap := by
        simp only [List.length_append, List.length_singleton, List.map_cons, List.sum_cons]
        omega
      rw [handle_alias_join]
      simp only [strcat, h1, h2, if_true]
      rw [ih (command ++ w ++ [' ']) (by simp) h3, intercalate_space_cons_cons]
      simp

/-- The command string `handle_alias` builds always fits its buffer. -/
theorem handle_alias_command (words : List CStr) (hne : words ≠ []) :
    handle_alias_join (handle_alias_len words 0) words []
      = some (List.intercalate [' '] words) := by
  have := handle_alias_join_eq (handle_alias_len words 0) words [] hne
    (by rw [handle_alias_len_eq]; simp)
  simpa using this

theorem resolve_redirection_loop_skip (open_ok : CStr → Bool) (before pre rest : List CStr)
    (h : ">".toList ∉ pre) :
    resolve_redirection_loop open_ok before (pre ++ rest)
      = resolve_redirection_loop open_ok (before ++ pre) rest := by
  induction pre generalizing before with
  | nil => simp
  | cons arg pre ih =>
    simp only [List.mem_cons, not_or] at h
    have hne : ¬ arg = ">".toList := fun e => h.1 e.symm
    have hstep : resolve_redirection_loop open_ok before (arg :: (pre ++ rest))
        = resolve_redirection_loop open_ok (before ++ [arg]) (pre ++ rest) := by
      simp only [resolve_redirection_loop, hne, if_false]
    rw [List.cons_append, hstep, ih _ h.2]
    simp

/-! ## Alias substitution: lemmas -/

theorem space_free_runs_intercalate (tokens : List CStr)
    (h : ∀ t ∈ tokens, t ≠ [] ∧ ' ' ∉ t) :
    space_free_runs (List.intercalate [' '] tokens) = tokens := by
  induction tokens with
  | nil => simp [List.intercalate, space_free_runs_nil]
  | cons t rest ih =>
    have ht := h t (List.mem_cons_self _ _)
    have hsp : ∀ c ∈ t, c ≠ ' ' := fun c hc e => ht.2 (e ▸ hc)
    cases rest with
    | nil =>
      rw [intercalate_space_single]
      exact space_free_runs_single t ht.1 hsp
    | cons u rest =>
      rw [intercalate_space_cons_cons, space_free_runs_token t _ ht.1 hsp,
        ih (fun x hx => h x (List.mem_cons_of_mem _ hx))]

theorem intercalate_space_cons (c : CStr) (args : List CStr) :
    List.intercalate [' '] (c :: args) = c ++ (args.map (fun a => ' ' :: a)).flatten := by
  induction args generalizing c with
  | nil => simp [intercalate_space_single]
  | cons a rest ih =>
    rw [intercalate_space_cons_cons, ih a]
    simp

theorem full_cmd_loop_eq (args : List CStr) (started : CStr)
    (h : (started ++ (args.map (fun a => ' ' :: a)).flatten).length < MAX_LINE) :
    full_cmd_loop args started
      = some (started ++ (args.map (fun a => ' ' :: a)).flatten) := by
  induction args generalizing started with
  | nil => simp [full_cmd_loop]
  | cons a rest ih =>
    simp only [List.map_cons, List.flatten_cons, List.length_append, List.length_cons] at h
    have h1 : started.length + [' '].length < MAX_LINE := by
      simp only [List.length_singleton]; omega
    have h2 : (started ++ [' ']).length + a.length < MAX_LINE := by
      simp only [List.length_append, List.length_singleton]; omega
    have h3 : (started ++ [' '] ++ a
        ++ (rest.map (fun a => ' ' :: a)).flatten).length < MAX_LINE := by
      simp only [List.length_append, List.length_singleton]; omega
    simp only [full_cmd_loop, strcat, h1, h2, if_true]
    rw [ih _ h3]
    simp

/-- On a hit whose combined command fits `full_cmd`, the alias step is
re-tokenization followed by re-expansion of the combined command. -/
theorem alias_substitution_hit (env : Env) (alias_list : List AliasNode)
    (arg0 command : CStr) (args : List CStr)
    (hfind : findAlias alias_list arg0 = some command)
    (hlen : (List.intercalate [' '] (command :: args)).length < MAX_LINE) :
    alias_substitution env alias_list arg0 args
      = (parse_command (List.intercalate [' '] (command :: args))).bind
          (substitute_environment_variables env) := by
  rw [intercalate_space_cons] at hlen ⊢
  have h0 : ([] : CStr).length + command.length < MAX_LINE := by
    simp only [List.length_append, List.length_nil, Nat.zero_add] at hlen ⊢; omega
  simp only [alias_substitution, hfind, strcat, h0, if_true, List.nil_append,
    full_cmd_loop_eq args command hlen]
  cases parse_command (command ++ (args.map (fun a => ' ' :: a)).flatten) <;> rfl

theorem alias_substitution_miss (env : Env) (alias_list : List AliasNode)
    (arg0 : CStr) (args : List CStr) (hfind : findAlias alias_list arg0 = none) :
    alias_substitution env alias_list arg0 args = some (arg0 :: args) := by
  simp [alias_substitution, hfind]

/-- A run of one repeated letter joined to another: an alias whose stored
command and single argument are such runs overflows `full_cmd` as soon as the
combined length reaches `MAX_LINE`. -/
theorem alias_substitution_long_runs (n m : Nat) (hfit : n < MAX_LINE)
    (hover : MAX_LINE ≤ n + 1 + m) :
    alias_substitution [] [{ name := ['n'], command := List.replicate n 'a' }] ['n']
      [List.replicate m 'b'] = none := by
  have h1 : ([] : CStr).length + (List.replicate n 'a').length < MAX_LINE := by simpa using hfit
  simp only [alias_substitution, findAlias, if_true, strcat, h1, full_cmd_loop,
    List.nil_append]
  by_cases h2 : (List.replicate n 'a').length + [' '].length < MAX_LINE
  · have h3 : ¬ ((List.replicate n 'a' ++ [' ']).length + (List.replicate m 'b').length
        < MAX_LINE) := by
      simp only [List.length_append, List.length_replicate, List.length_singleton]; omega
    simp only [h2, if_true, h3, if_false]
  · simp only [h2, if_false]

theorem retokenize_long_runs (n m : Nat) (hn : 0 < n) (hm : 0 < m) :
    (parse_command
        (List.intercalate [' '] [List.replicate n 'a', List.replicate m 'b'])).bind
      (substitute_environment_variables [])
      = some [List.replicate n 'a', List.replicate m 'b'] := by
  have hna : List.replicate n 'a' ≠ [] := by
    intro e
    have := congrArg List.length e
    simp at this; omega
  have hnb : List.replicate m 'b' ≠ [] := by
    intro e
    have := congrArg List.length e
    simp at this; omega
  have hruns : space_free_runs
      (List.intercalate [' '] [List.replicate n 'a', List.replicate m 'b'])
      = [List.replicate n 'a', List.replicate m 'b'] := by
    apply space_free_runs_intercalate
    intro t ht
    simp only [List.mem_cons, List.mem_singleton, List.not_mem_nil, or_false] at ht
    rcases ht with rfl | rfl
    · exact ⟨hna, by simp [List.mem_replicate]⟩
    · exact ⟨hnb, by simp [List.mem_replicate]⟩
  have hsub : substitute_environment_variables []
      [List.replicate n 'a', List.replicate m 'b']
      = some ([List.replicate n 'a', List.replicate m 'b'].map (substituted_arg [])) := by
    apply substitute_environment_variables_eq
    intro t ht name hname
    simp only [List.mem_cons, List.mem_singleton, List.not_mem_nil, or_false] at ht
    rcases ht with rfl | rfl
    · have : '$' ∈ List.replicate n 'a' := by rw [hname]; simp
      simp [List.mem_replicate] at this
    · have : '$' ∈ List.replicate m 'b' := by rw [hname]; simp
      simp [List.mem_replicate] at this
  have hmap : [List.replicate n 'a', List.replicate m 'b'].map (substituted_arg [])
      = [List.replicate n 'a', List.replicate m 'b'] := by
    apply map_substituted_arg_plain
    intro t ht
    simp only [List.mem_cons, List.mem_singleton, List.not_mem_nil, or_false] at ht
    rcases ht with rfl | rfl
    · intro hh
      have : '$' ∈ List.replicate n 'a' := List.mem_of_mem_head? hh
      simp [List.mem_replicate] at this
    · intro hh
      have : '$' ∈ List.replicate m 'b' := List.mem_of_mem_head? hh
      simp [List.mem_replicate] at this
  rw [parse_command_eq, hruns]
  simp only [List.length_cons, List.length_nil, MAX_ARGS]
  rw [if_pos (by decide), Option.bind, hsub, hmap]

/-! ## execute_command: lemmas -/

theorem execute_command_alias_builtin (os : OS) (sh : Shell) (cmd : CStr)
    (parsed args : List CStr)
    (hp : parse_command cmd = some parsed)
    (hs : substitute_environment_variables sh.env parsed = some ("alias".toList :: args)) :
    execute_command os sh cmd
      = (handle_alias sh ("alias".toList :: args)).map (fun sh1 => (sh1, Outcome.builtin)) := by
  simp only [execute_command, hp, hs, if_true]

theorem execute_command_external (os : OS) (sh : Shell) (cmd : CStr)
    (parsed args argv : List CStr) (arg0 : CStr)
    (hp : parse_command cmd = some parsed)
    (hs : substitute_environment_variables sh.env parsed = some (arg0 :: args))
    (h1 : arg0 ≠ "alias".toList) (h2 : arg0 ≠ "export".toList) (h3 : arg0 ≠ "unset".toList)
    (ha : alias_substitution sh.env sh.alias_list arg0 args = some argv) :
    execute_command os sh cmd
      = match resolve_redirection os.open_ok argv with
        | Redirection.error =>
          some ({ sh with err := sh.err ++ ["Redirection error\n".toList] },
                Outcome.redirection_error)
        | Redirection.proceed final target =>
          if os.fork_ok then some (sh, Outcome.spawned final target)
          else some ({ sh with err := sh.err ++ ["Error: fork failed\n".toList] },
                     Outcome.fork_failed) := by
  simp only [execute_command, hp, hs, h1, h2, h3, if_false, ha]

theorem handle_alias_define (sh : Shell) (arg0 name w : CStr) (ws : List CStr) :
    handle_alias sh (arg0 :: name :: w :: ws)
      = some { sh with alias_list :=
          addOrUpdateAlias sh.alias_list name (List.intercalate [' '] (w :: ws)) } := by
  simp only [handle_alias, handle_alias_command (w :: ws) (by simp)]

theorem parse_command_words (tokens : List CStr)
    (h : ∀ t ∈ tokens, t ≠ [] ∧ ' ' ∉ t) (hn : tokens.length < MAX_ARGS) :
    parse_command (List.intercalate [' '] tokens) = some tokens := by
  rw [parse_command_eq, space_free_runs_intercalate tokens h, if_pos hn]

theorem substitute_plain (env : Env) (tokens : List CStr)
    (h : ∀ t ∈ tokens, t.head? ≠ some '$') :
    substitute_environment_variables env tokens = some tokens := by
  have := substitute_environment_variables_eq env tokens
    (fun t ht name hname => absurd (by simp [hname]) (h t ht))
  rw [this, map_substituted_arg_plain env tokens h]

theorem resolve_redirection_none (open_ok : CStr → Bool) (argv : List CStr)
    (h : ">".toList ∉ argv) :
    resolve_redirection open_ok argv = Redirection.proceed argv none := by
  have := resolve_redirection_loop_skip open_ok [] argv [] h
  simpa [resolve_redirection, resolve_redirection_loop] using this

theorem handle_alias_total (sh : Shell) (arg0 : CStr) (args : List CStr) :
    ∃ sh1, handle_alias sh (arg0 :: args) = some sh1 := by
  match args with
  | [] => exact ⟨_, rfl⟩
  | [name] =>
    cases hf : findAlias sh.alias_list name with
    | none =>
      exact ⟨{ sh with err := sh.err ++ ["Error: alias not found\n".toList] },
        by simp only [handle_alias, hf]⟩
    | some command =>
      exact ⟨{ sh with out := sh.out ++ [alias_line name command] },
        by simp only [handle_alias, hf]⟩
  | name :: w :: ws => exact ⟨_, handle_alias_define sh arg0 name w ws⟩

theorem execute_command_export_builtin (os : OS) (sh : Shell) (cmd : CStr)
    (parsed args : List CStr)
    (hp : parse_command cmd = some parsed)
    (hs : substitute_environment_variables sh.env parsed = some ("export".toList :: args)) :
    execute_command os sh cmd
      = some (handle_export sh ("export".toList :: args), Outcome.builtin) := by
  have h1 : ¬ "export".toList = "alias".toList := by decide
  simp only [execute_command, hp, hs, h1, if_false, if_true]

theorem execute_command_unset_builtin (os : OS) (sh : Shell) (cmd : CStr)
    (parsed args : List CStr)
    (hp : parse_command cmd = some parsed)
    (hs : substitute_environment_variables sh.env parsed = some ("unset".toList :: args)) :
    execute_command os sh cmd
      = some (handle_unset sh ("unset".toList :: args), Outcome.builtin) := by
  have h1 : ¬ "unset".toList = "alias".toList := by decide
  have h2 : ¬ "unset".toList = "export".toList := by decide
  simp only [execute_command, hp, hs, h1, h2, if_false, if_true]

theorem resolve_redirection_operator_last (open_ok : CStr → Bool) (pre : List CStr)
    (hpre : ">".toList ∉ pre) :
    resolve_redirection open_ok (pre ++ [">".toList]) = Redirection.error := by
  rw [resolve_redirection, resolve_redirection_loop_skip open_ok [] pre _ hpre]
  simp [resolve_redirection_loop]

theorem resolve_redirection_open_fails (open_ok : CStr → Bool) (pre post : List CStr)
    (path : CStr) (hpre : ">".toList ∉ pre) (hopen : open_ok path = false) :
    resolve_redirection open_ok (pre ++ ">".toList :: path :: post) = Redirection.error := by
  rw [resolve_redirection, resolve_redirection_loop_skip open_ok [] pre _ hpre]
  simp [resolve_redirection_loop, hopen]

/-! ## Environment: lemmas -/

theorem getenv_filter_ne (env : Env) (name other : CStr) :
    getenv (env.filter (fun entry => entry.1 ≠ name)) other
      = if other = name then none else getenv env other := by
  induction env with
  | nil => simp [getenv]
  | cons entry rest ih =>
    obtain ⟨n, v⟩ := entry
    by_cases hn : n = name
    · subst hn
      by_cases ho : other = n
      · subst ho
        simpa [List.filter_cons, getenv] using ih
      · have ho2 : ¬ n = other := fun e => ho e.symm
        simpa [List.filter_cons, getenv, ho, ho2] using ih
    · by_cases ho : other = name
      · subst ho
        have : ¬ n = other := hn
        simpa [List.filter_cons, getenv, hn] using ih
      · have hkeep : ((n, v) :: rest).filter (fun entry => entry.1 ≠ name)
            = (n, v) :: rest.filter (fun entry => entry.1 ≠ name) := by
          simp [List.filter_cons, hn]
        rw [hkeep, getenv, getenv, ih, if_neg ho, if_neg ho]

theorem getenv_setenv_same (env : Env) (name value : CStr)
    (hne : name ≠ []) (heq : '=' ∉ name) :
    getenv (setenv env name value) name = some value := by
  simp [setenv, hne, heq, getenv]

theorem getenv_setenv_other (env : Env) (name value other : CStr) (h : other ≠ name) :
    getenv (setenv env name value) other = getenv env other := by
  by_cases hv : name = [] ∨ '=' ∈ name
  · simp [setenv, hv]
  · have h2 : ¬ (name = other ∧ other ≠ []) := fun e => h e.1.symm
    rw [setenv, if_neg hv, getenv, if_neg h2, getenv_filter_ne, if_neg h]

theorem getenv_unsetenv (env : Env) (name other : CStr) :
    getenv (unsetenv env name).1 other
      = if (name ≠ [] ∧ '=' ∉ name) ∧ other = name then none else getenv env other := by
  by_cases hv : name = [] ∨ '=' ∈ name
  · have : ¬ (name ≠ [] ∧ '=' ∉ name) := by
      rcases hv with h | h
      · exact fun c => c.1 h
      · exact fun c => c.2 h
    simp [unsetenv, hv, this]
  · have hvalid : name ≠ [] ∧ '=' ∉ name := by
      constructor
      · exact fun c => hv (Or.inl c)
      · exact fun c => hv (Or.inr c)
    rw [unsetenv, if_neg hv]
    simp only [getenv_filter_ne, hvalid, true_and, ne_eq, not_false_eq_true, and_self]

theorem unsetenv_succeeds_iff (env : Env) (name : CStr) :
    (unsetenv env name).2 = true ↔ (name ≠ [] ∧ '=' ∉ name) := by
  by_cases hv : name = [] ∨ '=' ∈ name
  · simp only [unsetenv, hv, if_true, Bool.false_eq_true, false_iff]
    rcases hv with h | h
    · exact fun c => c.1 h
    · exact fun c => c.2 h
  · simp only [unsetenv, hv, if_false, true_iff]
    exact ⟨fun c => hv (Or.inl c), fun c => hv (Or.inr c)⟩

theorem handle_unset_loop_other (args : List CStr) (env : Env) (error : Bool) (name : CStr)
    (h : name ∉ args) :
    getenv (handle_unset_loop args env error).1 name = getenv env name := by
  induction args generalizing env error with
  | nil => rfl
  | cons arg rest ih =>
    simp only [List.mem_cons, not_or] at h
    rw [handle_unset_loop, ih _ _ h.2, getenv_unsetenv]
    simp [h.1]

theorem handle_unset_loop_keeps_none (args : List CStr) (env : Env) (error : Bool)
    (name : CStr) (h : getenv env name = none) :
    getenv (handle_unset_loop args env error).1 name = none := by
  induction args generalizing env error with
  | nil => exact h
  | cons arg rest ih =>
    rw [handle_unset_loop]
    apply ih
    rw [getenv_unsetenv]
    split
    · rfl
    · exact h

theorem handle_unset_loop_removed (args : List CStr) (env : Env) (error : Bool) (name : CStr)
    (hmem : name ∈ args) (hne : name ≠ []) (heq : '=' ∉ name) :
    getenv (handle_unset_loop args env error).1 name = none := by
  induction args generalizing env error with
  | nil => simp at hmem
  | cons arg rest ih =>
    rw [handle_unset_loop]
    by_cases ha : name = arg
    · subst ha
      apply handle_unset_loop_keeps_none
      rw [getenv_unsetenv]
      simp [hne, heq]
    · have : name ∈ rest := by
        rcases List.mem_cons.1 hmem with h | h
        · exact absurd h ha
        · exact h
      exact ih _ _ this

theorem handle_unset_loop_error (args : List CStr) (env : Env) (error : Bool) :
    (handle_unset_loop args env error).2 = true
      ↔ error = true ∨ ∃ name ∈ args, name = [] ∨ '=' ∈ name := by
  induction args generalizing env error with
  | nil => simp [handle_unset_loop]
  | cons arg rest ih =>
    rw [handle_unset_loop, ih]
    by_cases hv : arg = [] ∨ '=' ∈ arg
    · have : (unsetenv env arg).2 = false := by simp [unsetenv, hv]
      simp only [this, Bool.false_eq_true, if_false, true_or, true_iff]
      exact Or.inr ⟨arg, List.mem_cons_self _ _, hv⟩
    · have : (unsetenv env arg).2 = true := by simp [unsetenv, hv]
      simp only [this, if_true, List.mem_cons]
      constructor
      · rintro (h | ⟨name, hm, hn⟩)
        · exact Or.inl h
        · exact Or.inr ⟨name, Or.inr hm, hn⟩
      · rintro (h | ⟨name, hm | hm, hn⟩)
        · exact Or.inl h
        · exact absurd (hm ▸ hn) hv
        · exact Or.inr ⟨name, hm, hn⟩

theorem takeWhile_ne_append (delim : Char) (name rest : CStr) (h : delim ∉ name) :
    (name ++ delim :: rest).takeWhile (fun c => c != delim) = name := by
  induction name with
  | nil => simp [List.takeWhile_cons]
  | cons c name ih =>
    simp only [List.mem_cons, not_or] at h
    have hc : ¬ c = delim := fun e => h.1 e.symm
    simp [List.takeWhile_cons, hc, ih h.2]

theorem dropWhile_ne_append (delim : Char) (name rest : CStr) (h : delim ∉ name) :
    (name ++ delim :: rest).dropWhile (fun c => c != delim) = delim :: rest := by
  induction name with
  | nil => simp [List.dropWhile_cons]
  | cons c name ih =>
    simp only [List.mem_cons, not_or] at h
    have hc : ¬ c = delim := fun e => h.1 e.symm
    simp [List.dropWhile_cons, hc, ih h.2]

theorem dropWhile_eq_self_of_head (delim : Char) (s : CStr) (h : s.head? ≠ some delim) :
    s.dropWhile (fun c => c == delim) = s := by
  match s, h with
  | [], _ => rfl
  | c :: rest, hc =>
    have : ¬ c = delim := fun e => hc (by simp [e])
    simp [List.dropWhile_cons, this]

/-- `strtok` on a text that starts with a delimiter-free, non-empty word followed
by the delimiter. -/
theorem strtok_word_delim (delim : Char) (name rest : CStr)
    (hne : name ≠ []) (h : delim ∉ name) :
    strtok delim (name ++ delim :: rest) = some (name, rest) := by
  have hhead : (name ++ delim :: rest).head? ≠ some delim := by
    match name, hne, h with
    | c :: tl, _, hc =>
      simp only [List.mem_cons, not_or] at hc
      simpa using fun e : c = delim => hc.1 e.symm
  have hnil : ¬ name ++ delim :: rest = [] := by simp
  simp only [strtok, dropWhile_eq_self_of_head delim _ hhead, hnil, if_false,
    takeWhile_ne_append delim name rest h, dropWhile_ne_append delim name rest h]
  rfl

/-- `strtok` on a delimiter-free, non-empty word that ends the text. -/
theorem strtok_word_end (delim : Char) (name : CStr) (hne : name ≠ []) (h : delim ∉ name) :
    strtok delim name = some (name, []) := by
  have hhead : name.head? ≠ some delim := by
    intro e
    exact h (List.mem_of_mem_head? e)
  have ht : name.takeWhile (fun c => c != delim) = name := by
    rw [List.takeWhile_eq_self_iff]
    intro c hc
    simpa using fun e : c = delim => h (e ▸ hc)
  have hd : name.dropWhile (fun c => c != delim) = [] := by
    rw [List.dropWhile_eq_nil_iff]
    intro c hc
    simpa using fun e : c = delim => h (e ▸ hc)
  simp only [strtok, dropWhile_eq_self_of_head delim _ hhead, hne, if_false, ht, hd]
  rfl

/-- `handle_export` on a well-formed `NAME=VALUE` whose value has no `=`. -/
theorem handle_export_sets (sh : Shell) (arg0 name value : CStr)
    (hname : name ≠ [] ∧ '=' ∉ name) (hvalue : value ≠ [] ∧ '=' ∉ value) :
    handle_export sh [arg0, name ++ '=' :: value]
      = { sh with env := setenv sh.env name value } := by
  simp only [handle_export, strtok_word_delim '=' name value hname.1 hname.2,
    strtok_word_end '=' value hvalue.1 hvalue.2, set_environment_variable]

/-! ## Expansion before dispatch: lemmas -/

theorem substitute_cons_dollar (env : Env) (name : CStr) (rest : List CStr)
    (h : name.length < MAX_LINE) :
    substitute_environment_variables env (('$' :: name) :: rest)
      = (substitute_environment_variables env rest).map
          (fun done => (libc_getenv env name).getD [] :: done) := by
  simp only [substitute_environment_variables, h, if_true]

theorem substitute_cons_plain (env : Env) (token : CStr) (rest : List CStr)
    (h : token.head? ≠ some '$') :
    substitute_environment_variables env (token :: rest)
      = (substitute_environment_variables env rest).map (fun done => token :: done) := by
  match token, h with
  | [], _ => simp only [substitute_environment_variables]
  | c :: tl, hc =>
    rw [substitute_environment_variables]
    intro var_name heq
    apply hc
    simp [(List.cons.inj heq).1]

/-- Writing the value in place of every reference to a variable does not change
what expansion produces, when the value is not itself a reference. -/
theorem substitute_replace_reference (env : Env) (name value : CStr) (tokens : List CStr)
    (hget : getenv env name = some value) (hlen : name.length < MAX_LINE)
    (hval : value.head? ≠ some '$') :
    substitute_environment_variables env
        (tokens.map (fun t => if t = '$' :: name then value else t))
      = substitute_environment_variables env tokens := by
  induction tokens with
  | nil => rfl
  | cons t rest ih =>
    by_cases ht : t = '$' :: name
    · subst ht
      simp only [List.map_cons, if_true]
      rw [substitute_cons_plain env value _ hval, substitute_cons_dollar env name rest hlen, ih,
        libc_getenv_of_getenv env name value hget]
      rfl
    · simp only [List.map_cons, ht, if_false]
      match t with
      | [] =>
        rw [substitute_cons_plain env [] _ (by simp), substitute_cons_plain env [] _ (by simp),
          ih]
      | c :: tl =>
        by_cases hc : c = '$'
        · subst hc
          by_cases hl : tl.length < MAX_LINE
          · rw [substitute_cons_dollar env tl _ hl, substitute_cons_dollar env tl _ hl, ih]
          · simp only [substitute_environment_variables, hl, if_false]
        · have hp : (c :: tl).head? ≠ some '$' := by simpa using hc
          rw [substitute_cons_plain env _ _ hp, substitute_cons_plain env _ _ hp, ih]

/-- `execute_command` sees a line only through its expanded tokens. -/
theorem execute_command_same_expansion (os : OS) (sh : Shell) (line1 line2 : CStr)
    (f : List CStr → List CStr)
    (hparse : parse_command line2 = (parse_command line1).map f)
    (h : ∀ parsed, substitute_environment_variables sh.env (f parsed)
        = substitute_environment_variables sh.env parsed) :
    execute_command os sh line1 = execute_command os sh line2 := by
  cases h1 : parse_command line1 with
  | none =>
    rw [h1] at hparse
    simp only [execute_command, h1, hparse, Option.map]
  | some parsed =>
    rw [h1] at hparse
    simp only [execute_command, h1, hparse, Option.map, h parsed]

theorem execute_command_export_line (os : OS) (sh : Shell) (name value : CStr)
    (hname : name ≠ [] ∧ ' ' ∉ name ∧ '=' ∉ name ∧ name.head? ≠ some '$')
    (hvalue : value ≠ [] ∧ ' ' ∉ value ∧ '=' ∉ value) :
    execute_command os sh (List.intercalate [' '] ["export".toList, name ++ '=' :: value])
      = some ({ sh with env := setenv sh.env name value }, Outcome.builtin) := by
  have hsp : ' ' ∉ name ++ '=' :: value := by
    simp only [List.mem_append, List.mem_cons, not_or]
    exact ⟨hname.2.1, by decide, hvalue.2.1⟩
  have hp : parse_command (List.intercalate [' '] ["export".toList, name ++ '=' :: value])
      = some ["export".toList, name ++ '=' :: value] := by
    apply parse_command_words
    · intro t ht
      simp only [List.mem_cons, List.mem_singleton, List.not_mem_nil, or_false] at ht
      rcases ht with rfl | rfl
      · decide
      · exact ⟨by simp, hsp⟩
    · simp [MAX_ARGS]
  have hhead : (name ++ '=' :: value).head? ≠ some '$' := by
    match name, hname.1, hname.2.2.2 with
    | c :: tl, _, hc => simpa using hc
  have hs : substitute_environment_variables sh.env ["export".toList, name ++ '=' :: value]
      = some ("export".toList :: [name ++ '=' :: value]) := by
    apply substitute_plain
    intro t ht
    simp only [List.mem_cons, List.mem_singleton, List.not_mem_nil, or_false] at ht
    rcases ht with rfl | rfl
    · decide
    · exact hhead
  rw [execute_command_export_builtin os sh _ _ _ hp hs,
    handle_export_sets sh _ name value ⟨hname.1, hname.2.2.1⟩ ⟨hvalue.1, hvalue.2.2⟩]

/-- `handle_export` with a number of arguments other than one reports the
format error and leaves everything else alone. -/
theorem handle_export_rejects_count (sh : Shell) (argv : List CStr) (h : argv.length ≠ 2) :
    handle_export sh argv
      = { sh with err := sh.err ++ ["Error: invalid export format\n".toList] } := by
  match argv, h with
  | [], _ => rfl
  | [_], _ => rfl
  | [_, _], h => exact absurd rfl h
  | _ :: _ :: _ :: _, _ => rfl

/-- `handle_export` with one argument that contains no `=` reports the format
error and leaves everything else alone. -/
theorem handle_export_rejects_no_equals (sh : Shell) (arg0 arg : CStr) (h : '=' ∉ arg) :
    handle_export sh [arg0, arg]
      = { sh with err := sh.err ++ ["Error: invalid export format\n".toList] } := by
  by_cases hne : arg = []
  · subst hne
    rfl
  · have h2 : strtok '=' ([] : CStr) = none := rfl
    simp only [handle_export, strtok_word_end '=' arg hne h, h2]

/-! ## main: lemmas -/

theorem fgets_scan_consumes (room : Nat) (input : CStr) (hroom : 0 < room)
    (hne : input ≠ []) :
    (fgets_scan room input).2.length < input.length := by
  induction room generalizing input with
  | zero => exact absurd hroom (Nat.lt_irrefl 0)
  | succ room ih =>
    match input, hne with
    | c :: rest, _ =>
      by_cases hc : c = Char.ofNat 10
      · simp [fgets_scan, hc]
      · simp only [fgets_scan, hc, if_false, List.length_cons]
        by_cases hr : 0 < room
        · by_cases hrest : rest = []
          · subst hrest
            cases room <;> simp [fgets_scan]
          · exact Nat.lt_succ_of_lt (ih rest hr hrest)
        · have : room = 0 := by omega
          subst this
          simp [fgets_scan]

/-- With more fuel than unread characters the loop of `main` ends. -/
theorem main_loop_ends (os : OS) (interactive : Bool) (fuel : Nat) (input : CStr)
    (sh : Shell) (trace : List Outcome) (h : input.length < fuel) :
    ∃ r, main_loop os interactive fuel input sh trace = some r := by
  induction fuel generalizing input sh trace with
  | zero => exact absurd h (Nat.not_lt_zero _)
  | succ fuel ih =>
    by_cases hin : input = []
    · subst hin
      simp only [main_loop, fgets, if_true]
      exact ⟨_, rfl⟩
    · have hcons := fgets_scan_consumes (MAX_LINE - 1) input (by decide) hin
      have hlt : (fgets_scan (MAX_LINE - 1) input).2.length < fuel := by omega
      simp only [main_loop, fgets, hin, if_false]
      split
      · exact ih _ _ _ hlt
      · split
        · exact ⟨_, rfl⟩
        · split
          · exact ⟨_, rfl⟩
          · exact ih _ _ _ hlt

theorem intercalate_space_nested (w : CStr) (ws args : List CStr) :
    List.intercalate [' '] (List.intercalate [' '] (w :: ws) :: args)
      = List.intercalate [' '] (w :: ws ++ args) := by
  rw [intercalate_space_cons, intercalate_space_cons, List.cons_append, intercalate_space_cons]
  simp

/-! ## Claims -/

/-- C1 (alias round trip): after any sequence of `addOrUpdateAlias` calls from
the empty table, `findAlias` on a name that was never registered returns
not-found, and on a registered name it returns the command of the last
registration of that name, whatever was registered before, between or after
under other names. -/
theorem findAlias_registerAll_last (regs : List (CStr × CStr)) (name : CStr) :
    (name ∉ regs.map Prod.fst → findAlias (registerAll regs) name = none) ∧
    (∀ (pre post : List (CStr × CStr)) (command : CStr),
        regs = pre ++ (name, command) :: post → name ∉ post.map Prod.fst →
        findAlias (registerAll regs) name = some command) := by
  constructor
  · intro h
    exact (findAlias_eq_none_iff _ _).2 (fun hm => h ((registerAll_names_mem regs name).1 hm))
  · intro pre post command hregs hpost
    subst hregs
    rw [registerAll_append, List.foldl_cons, findAlias_foldl_other post _ name hpost]
    exact findAlias_addOrUpdateAlias_same _ _ _

/-- Witness for C1: the theorem applied to concrete input, with its hypotheses
discharged by evaluation. -/
theorem findAlias_registerAll_last_witness :
    findAlias (registerAll [("a".toList, "x".toList), ("b".toList, "y".toList),
        ("a".toList, "z".toList), ("b".toList, "w".toList)]) "a".toList = some "z".toList ∧
    findAlias (registerAll [("a".toList, "x".toList), ("b".toList, "y".toList),
        ("a".toList, "z".toList), ("b".toList, "w".toList)]) "c".toList = none :=
  ⟨(findAlias_registerAll_last _ "a".toList).2
      [("a".toList, "x".toList), ("b".toList, "y".toList)] [("b".toList, "w".toList)]
      "z".toList rfl (by decide),
   (findAlias_registerAll_last _ "c".toList).1 (by decide)⟩

/-- C2 as stated fails: after registering `a` and then `b`, `printAliases` writes
the line for `a` first and the line for `b` second, not `b` before `a`; the
same is seen on the lines `alias a x`, `alias b y`, `alias` run through
`execute_command`. -/
theorem printAliases_newest_first_counterexample :
    printAliases (registerAll [("a".toList, "x".toList), ("b".toList, "y".toList)])
      = ["a='x'\n".toList, "b='y'\n".toList] ∧
    printAliases (registerAll [("a".toList, "x".toList), ("b".toList, "y".toList)])
      ≠ ([("a".toList, "x".toList), ("b".toList, "y".toList)].reverse.map
          (fun r => alias_line r.1 r.2)) ∧
    (execute_command { open_ok := fun _ => true, fork_ok := true }
        { alias_list := [], env := [], out := [], err := [] } "alias a x".toList).bind
      (fun r1 =>
        (execute_command { open_ok := fun _ => true, fork_ok := true } r1.1
            "alias b y".toList).bind (fun r2 =>
          execute_command { open_ok := fun _ => true, fork_ok := true } r2.1 "alias".toList))
      = some ({ alias_list := [{ name := "b".toList, command := "y".toList },
                               { name := "a".toList, command := "x".toList }],
                env := [], out := ["a='x'\n".toList, "b='y'\n".toList], err := [] },
              Outcome.builtin) := by
  decide

/-- C2 (amended): after registering pairwise distinct names n1, ..., nk in that
order, `printAliases` writes the entries in registration order n1, ..., nk
(oldest first), each as name='command' followed by a newline. -/
theorem printAliases_registration_order (regs : List (CStr × CStr))
    (h : (regs.map Prod.fst).Nodup) :
    printAliases (registerAll regs) = regs.map (fun r => alias_line r.1 r.2) := by
  rw [printAliases_eq, registerAll_distinct regs h]
  simp [createAliasNode, Function.comp_def]

/-- Witness for C2: the theorem applied to concrete input, with its hypotheses
discharged by evaluation. -/
theorem printAliases_registration_order_witness :
    printAliases (registerAll [("a".toList, "x".toList), ("b".toList, "y".toList),
        ("c".toList, "z".toList)])
      = [("a".toList, "x".toList), ("b".toList, "y".toList),
          ("c".toList, "z".toList)].map (fun r => alias_line r.1 r.2) :=
  printAliases_registration_order _ (by decide)

/-- C3 (alias creation): `handle_alias` on `[alias, NAME, W1, ..., Wk]` with k >= 1
stores under NAME exactly W1, ..., Wk joined by single spaces (nothing before
the first or after the last), as a new entry in front when NAME is absent and
in place of the old command when NAME is present; `handle_alias` on
`[alias, NAME]` in the resulting state then prints exactly NAME='that string'
followed by a newline. -/
theorem handle_alias_stores_joined (sh : Shell) (arg0 name w : CStr) (ws : List CStr) :
    handle_alias sh (arg0 :: name :: w :: ws)
      = some { sh with alias_list :=
          addOrUpdateAlias sh.alias_list name (List.intercalate [' '] (w :: ws)) } ∧
    findAlias (addOrUpdateAlias sh.alias_list name (List.intercalate [' '] (w :: ws))) name
      = some (List.intercalate [' '] (w :: ws)) ∧
    (name ∉ sh.alias_list.map AliasNode.name →
      addOrUpdateAlias sh.alias_list name (List.intercalate [' '] (w :: ws))
        = { name := name, command := List.intercalate [' '] (w :: ws) } :: sh.alias_list) ∧
    (name ∈ sh.alias_list.map AliasNode.name →
      ∃ before old after, sh.alias_list = before ++ old :: after ∧ old.name = name ∧
        addOrUpdateAlias sh.alias_list name (List.intercalate [' '] (w :: ws))
          = before ++ { name := name, command := List.intercalate [' '] (w :: ws) }
              :: after) ∧
    handle_alias
        { sh with alias_list :=
            addOrUpdateAlias sh.alias_list name (List.intercalate [' '] (w :: ws)) }
        [arg0, name]
      = some { sh with
          alias_list :=
            addOrUpdateAlias sh.alias_list name (List.intercalate [' '] (w :: ws)),
          out := sh.out ++
            [name ++ "='".toList ++ List.intercalate [' '] (w :: ws) ++ "'\n".toList] } := by
  refine ⟨?_, findAlias_addOrUpdateAlias_same _ _ _, ?_, ?_, ?_⟩
  · simp only [handle_alias, handle_alias_command (w :: ws) (by simp)]
  · intro habs
    exact addOrUpdateAlias_absent _ _ _ habs
  · intro hpres
    cases hl : addOrUpdateAlias_loop sh.alias_list name (List.intercalate [' '] (w :: ws)) with
    | none => exact absurd hpres ((addOrUpdateAlias_loop_none_iff _ name _).1 hl)
    | some updated =>
      obtain ⟨before, old, after, h1, h2, _, h4⟩ :=
        addOrUpdateAlias_loop_in_place _ name _ updated hl
      exact ⟨before, old, after, h1, h2, by simp [addOrUpdateAlias, hl, h4]⟩
  · simp only [handle_alias, findAlias_addOrUpdateAlias_same]
    rfl

/-- Witness for C3: the theorem applied to concrete input, with its hypotheses
discharged by evaluation. -/
theorem handle_alias_stores_joined_witness :
    handle_alias { alias_list := [], env := [], out := [], err := [] }
        ["alias".toList, "x".toList, "echo".toList, "hi".toList]
      = some { alias_list := [{ name := "x".toList, command := "echo hi".toList }],
               env := [], out := [], err := [] } ∧
    handle_alias
        { alias_list := [{ name := "x".toList, command := "echo hi".toList }],
          env := [], out := [], err := [] }
        ["alias".toList, "x".toList]
      = some { alias_list := [{ name := "x".toList, command := "echo hi".toList }],
               env := [], out := ["x='echo hi'\n".toList], err := [] } ∧
    addOrUpdateAlias [] "x".toList "echo hi".toList
      = [{ name := "x".toList, command := "echo hi".toList }] ∧
    (execute_command { open_ok := fun _ => true, fork_ok := true }
        { alias_list := [], env := [], out := [], err := [] } "alias x echo hi".toList).bind
      (fun r1 =>
        execute_command { open_ok := fun _ => true, fork_ok := true } r1.1 "alias x".toList)
      = some ({ alias_list := [{ name := "x".toList, command := "echo hi".toList }],
                env := [], out := ["x='echo hi'\n".toList], err := [] },
              Outcome.builtin) :=
  ⟨(handle_alias_stores_joined { alias_list := [], env := [], out := [], err := [] }
      "alias".toList "x".toList "echo".toList ["hi".toList]).1,
   (handle_alias_stores_joined { alias_list := [], env := [], out := [], err := [] }
      "alias".toList "x".toList "echo".toList ["hi".toList]).2.2.2.2,
   (handle_alias_stores_joined { alias_list := [], env := [], out := [], err := [] }
      "alias".toList "x".toList "echo".toList ["hi".toList]).2.2.1 (by decide),
   by decide⟩

/-- C4 (uniqueness invariant): in every table reachable from the empty one by
`addOrUpdateAlias` calls no two entries share a name; registering a name that is
present keeps the number of entries and replaces the command of the existing
entry at its position, every other entry staying where it was; registering an
absent name adds exactly one entry. -/
theorem addOrUpdateAlias_unique_names (regs : List (CStr × CStr)) (name command : CStr) :
    ((registerAll regs).map AliasNode.name).Nodup ∧
    (name ∈ (registerAll regs).map AliasNode.name →
      (addOrUpdateAlias (registerAll regs) name command).length = (registerAll regs).length ∧
      ∃ before old after, registerAll regs = before ++ old :: after ∧ old.name = name ∧
        addOrUpdateAlias (registerAll regs) name command
          = before ++ { name := name, command := command } :: after) ∧
    (name ∉ (registerAll regs).map AliasNode.name →
      (addOrUpdateAlias (registerAll regs) name command).length
        = (registerAll regs).length + 1) := by
  refine ⟨registerAll_names_nodup regs, ?_, ?_⟩
  · intro hp
    cases hl : addOrUpdateAlias_loop (registerAll regs) name command with
    | none => exact absurd hp ((addOrUpdateAlias_loop_none_iff _ name command).1 hl)
    | some updated =>
      obtain ⟨before, old, after, h1, h2, _, h4⟩ :=
        addOrUpdateAlias_loop_in_place _ name command updated hl
      have hu : addOrUpdateAlias (registerAll regs) name command = updated := by
        simp [addOrUpdateAlias, hl]
      refine ⟨?_, before, old, after, h1, h2, hu.trans h4⟩
      rw [hu, h4, h1]
      simp
  · intro hp
    rw [addOrUpdateAlias_absent _ _ _ hp]
    simp

/-- Witness for C4: the theorem applied to concrete input, with its hypotheses
discharged by evaluation. -/
theorem addOrUpdateAlias_unique_names_witness :
    (addOrUpdateAlias (registerAll [("a".toList, "x".toList), ("b".toList, "y".toList)])
        "a".toList "z".toList).length = 2 ∧
    (addOrUpdateAlias (registerAll [("a".toList, "x".toList), ("b".toList, "y".toList)])
        "c".toList "z".toList).length = 3 :=
  ⟨((addOrUpdateAlias_unique_names [("a".toList, "x".toList), ("b".toList, "y".toList)]
      "a".toList "z".toList).2.1 (by decide)).1,
   (addOrUpdateAlias_unique_names [("a".toList, "x".toList), ("b".toList, "y".toList)]
      "c".toList "z".toList).2.2 (by decide)⟩

/-- C5 as stated fails: a line of 64 one-letter words separated by single spaces
has 64 space-free runs, one more than the `MAX_ARGS`-slot array can hold with
its terminating `NULL`, and `parse_command` has no defined result on it. -/
theorem parse_command_every_line_counterexample :
    (space_free_runs (List.intercalate [' '] (List.replicate 64 ['a']))).length = 64 ∧
    parse_command (List.intercalate [' '] (List.replicate 64 ['a'])) = none ∧
    parse_command (List.intercalate [' '] (List.replicate 64 ['a']))
      ≠ some (space_free_runs (List.intercalate [' '] (List.replicate 64 ['a']))) := by
  decide

/-- C5 (amended): for every line with at most `MAX_ARGS - 1 = 63` maximal
space-free substrings, `parse_command` returns exactly those substrings in
left-to-right order; every such substring is non-empty and contains no space,
and a line that is empty or consists only of spaces yields the empty
sequence. -/
theorem parse_command_space_free_runs (line : CStr) :
    ((space_free_runs line).length < MAX_ARGS →
      parse_command line = some (space_free_runs line)) ∧
    (∀ token ∈ space_free_runs line, token ≠ [] ∧ ' ' ∉ token) ∧
    ((∀ c ∈ line, c = ' ') → parse_command line = some []) := by
  refine ⟨?_, ?_, ?_⟩
  · intro h
    rw [parse_command_eq, if_pos h]
  · intro token ht
    exact ⟨space_free_runs_nonempty line token ht, space_free_runs_space_free line token ht⟩
  · intro h
    rw [parse_command_eq, space_free_runs_all_spaces line h]
    rfl

/-- Witness for C5: the theorem applied to concrete input, with its hypotheses
discharged by evaluation. -/
theorem parse_command_space_free_runs_witness :
    parse_command "ls  -l   dir".toList = some ["ls".toList, "-l".toList, "dir".toList] ∧
    parse_command "   ".toList = some [] :=
  ⟨(parse_command_space_free_runs "ls  -l   dir".toList).1 (by decide),
   (parse_command_space_free_runs "   ".toList).2.2 (by decide)⟩

/-- C6 as stated fails: with A bound to `b=c`, no variable is named `A=b`, so the
claim prescribes the empty string for the token `$A=b`; but `getenv` is handed
the text `A=b`, accepts the entry `A=b=c` because `=` follows the text there,
and the token becomes `c`.  Read from standard input in an environment with
that binding, the line `echo $A=b` launches `[echo, c]`. -/
theorem substitute_reference_with_equals_counterexample :
    substitute_environment_variables [("A".toList, "b=c".toList)]
        ["echo".toList, "$A=b".toList]
      = some ["echo".toList, "c".toList] ∧
    getenv [("A".toList, "b=c".toList)] "A=b".toList = none ∧
    ["echo".toList, "$A=b".toList].map (expand_token [("A".toList, "b=c".toList)])
      = ["echo".toList, []] ∧
    substitute_environment_variables [("A".toList, "b=c".toList)]
        ["echo".toList, "$A=b".toList]
      ≠ some (["echo".toList, "$A=b".toList].map
          (expand_token [("A".toList, "b=c".toList)])) ∧
    main { open_ok := fun _ => true, fork_ok := true } (fun _ => none) "echo $A=b\n".toList
        [("A".toList, "b=c".toList)] []
      = some { sh := { alias_list := [], env := [("A".toList, "b=c".toList)],
                       out := ["wish> ".toList, "wish> ".toList], err := [] },
               trace := [Outcome.spawned ["echo".toList, "c".toList] none],
               how := Termination.exited 0 } := by
  decide

/-- C6 (amended): for every environment and every token sequence in which each
token starting with `$` has no `=` in it, so that what follows the `$` is a
variable name, and has at most `MAX_LINE = 512` characters, as every token
taken from the 512-byte line buffers has, `substitute_environment_variables`
returns a sequence of the same length in which each token starting with `$`
is replaced by the value of the variable named by the rest of the token, or by
the empty string when it is unset, and every other token, the empty one
included, is unchanged at its position. -/
theorem substitute_environment_variables_expands (env : Env) (argv : List CStr)
    (h : ∀ token ∈ argv, token.head? = some '$' →
      token.length ≤ MAX_LINE ∧ '=' ∉ token) :
    substitute_environment_variables env argv = some (argv.map (expand_token env)) ∧
    (argv.map (expand_token env)).length = argv.length ∧
    (∀ name value, getenv env name = some value → expand_token env ('$' :: name) = value) ∧
    (∀ name, getenv env name = none → expand_token env ('$' :: name) = []) ∧
    (∀ token, token.head? ≠ some '$' → expand_token env token = token) := by
  refine ⟨?_, by simp, ?_, ?_, ?_⟩
  · rw [substitute_environment_variables_eq]
    · congr 1
      apply List.map_congr_left
      intro token ht
      exact substituted_arg_eq_expand_token env token (fun hd => (h token ht hd).2)
    · intro token ht name hname
      have := (h token ht (by simp [hname])).1
      rw [hname, List.length_cons] at this
      omega
  · intro name value hv
    simp [expand_token, hv]
  · intro name hv
    simp [expand_token, hv]
  · intro token htok
    match token, htok with
    | [], _ => rfl
    | c :: rest, hc =>
      rw [expand_token]
      intro var_name heq
      apply hc
      simp [(List.cons.inj heq).1]

/-- Witness for C6: the theorem applied to concrete input, with its hypotheses
discharged by evaluation. -/
theorem substitute_environment_variables_expands_witness :
    substitute_environment_variables [("HOME".toList, "/root".toList)]
        ["cd".toList, "$HOME".toList, "$NONE".toList, []]
      = some ["cd".toList, "/root".toList, [], []] :=
  (substitute_environment_variables_expands [("HOME".toList, "/root".toList)]
    ["cd".toList, "$HOME".toList, "$NONE".toList, []] (by decide)).1

/-- C7 as stated fails: with V = one, the line `alias n cmd $V` stores the
command `cmd one`; after `export V=two` the line `n` hands the launcher
`[cmd, one]`, the value V had when the alias was defined, not `[cmd, two]`. -/
theorem alias_use_time_expansion_counterexample :
    (execute_command { open_ok := fun _ => true, fork_ok := true }
        { alias_list := [], env := [("V".toList, "one".toList)], out := [], err := [] }
        "alias n cmd $V".toList).bind (fun r1 =>
      (execute_command { open_ok := fun _ => true, fork_ok := true } r1.1
          "export V=two".toList).bind (fun r2 =>
        execute_command { open_ok := fun _ => true, fork_ok := true } r2.1 "n".toList))
      = some ({ alias_list := [{ name := "n".toList, command := "cmd one".toList }],
                env := [("V".toList, "two".toList)], out := [], err := [] },
              Outcome.spawned ["cmd".toList, "one".toList] none) ∧
    Outcome.spawned ["cmd".toList, "one".toList] none
      ≠ Outcome.spawned ["cmd".toList, "two".toList] none := by
  decide

/-- C7 (amended): a variable reference in the line that defines an alias is
expanded when the alias is defined.  If `alias n cmd $V` is processed while V
has the value v1 (n, cmd and v1 being non-empty words without spaces that do
not start with `$`, n not a builtin name, cmd and v1 different from `>`, the
stored command fitting the line buffer), the alias stores `cmd v1`, and
processing the line `n` under any later environment hands the launcher exactly
`[cmd, v1]`. -/
theorem alias_definition_time_expansion (os : OS) (sh : Shell) (n cmd V v1 : CStr)
    (hfork : os.fork_ok = true)
    (hn : n ≠ [] ∧ ' ' ∉ n ∧ n.head? ≠ some '$')
    (hnb : n ≠ "alias".toList ∧ n ≠ "export".toList ∧ n ≠ "unset".toList)
    (hcmd : cmd ≠ [] ∧ ' ' ∉ cmd ∧ cmd.head? ≠ some '$' ∧ cmd ≠ ">".toList)
    (hV : ' ' ∉ V ∧ V.length < MAX_LINE)
    (hv1 : v1 ≠ [] ∧ ' ' ∉ v1 ∧ v1.head? ≠ some '$' ∧ v1 ≠ ">".toList)
    (hget : getenv sh.env V = some v1)
    (hlen : cmd.length + 1 + v1.length < MAX_LINE) :
    execute_command os sh (List.intercalate [' '] ["alias".toList, n, cmd, '$' :: V])
      = some ({ sh with alias_list := addOrUpdateAlias sh.alias_list n (cmd ++ ' ' :: v1) },
              Outcome.builtin) ∧
    ∀ env2 : Env,
      execute_command os
          { sh with alias_list := addOrUpdateAlias sh.alias_list n (cmd ++ ' ' :: v1),
                    env := env2 } n
        = some ({ sh with alias_list := addOrUpdateAlias sh.alias_list n (cmd ++ ' ' :: v1),
                          env := env2 },
                Outcome.spawned [cmd, v1] none) := by
  have hjoin : List.intercalate [' '] [cmd, v1] = cmd ++ ' ' :: v1 := by
    rw [intercalate_space_cons_cons, intercalate_space_single]
  constructor
  · have hp : parse_command (List.intercalate [' '] ["alias".toList, n, cmd, '$' :: V])
        = some ["alias".toList, n, cmd, '$' :: V] := by
      apply parse_command_words
      · intro t ht
        simp only [List.mem_cons, List.mem_singleton, List.not_mem_nil, or_false] at ht
        rcases ht with rfl | rfl | rfl | rfl
        · decide
        · exact ⟨hn.1, hn.2.1⟩
        · exact ⟨hcmd.1, hcmd.2.1⟩
        · refine ⟨by simp, ?_⟩
          simp only [List.mem_cons, not_or]
          exact ⟨by decide, hV.1⟩
      · simp [MAX_ARGS]
    have hs : substitute_environment_variables sh.env ["alias".toList, n, cmd, '$' :: V]
        = some ("alias".toList :: [n, cmd, v1]) := by
      rw [substitute_environment_variables_eq]
      · simp only [List.map_cons, List.map_nil, substituted_arg_plain sh.env n hn.2.2,
          substituted_arg_plain sh.env cmd hcmd.2.2.1]
        have e1 : substituted_arg sh.env "alias".toList = "alias".toList := rfl
        have e2 : substituted_arg sh.env ('$' :: V) = v1 := by
          simp [substituted_arg, libc_getenv_of_getenv sh.env V v1 hget]
        rw [e1, e2]
      · intro t ht name hname
        simp only [List.mem_cons, List.mem_singleton, List.not_mem_nil, or_false] at ht
        rcases ht with rfl | rfl | rfl | rfl
        · exact absurd
            (List.cons.inj (hname : 'a' :: "lias".toList = '$' :: name)).1 (by decide)
        · exact absurd (by simp [hname]) hn.2.2
        · exact absurd (by simp [hname]) hcmd.2.2.1
        · rw [(List.cons.inj hname).2] at hV
          exact hV.2
    rw [execute_command_alias_builtin os sh _ _ _ hp hs, handle_alias_define, hjoin]
    rfl
  · intro env2
    have hp : parse_command n = some [n] := by
      have := parse_command_words [n] (by simpa using ⟨hn.1, hn.2.1⟩) (by simp [MAX_ARGS])
      rwa [intercalate_space_single] at this
    have hs : substitute_environment_variables env2 [n] = some (n :: []) :=
      substitute_plain env2 [n] (by simpa using hn.2.2)
    have hfind : findAlias (addOrUpdateAlias sh.alias_list n (cmd ++ ' ' :: v1)) n
        = some (cmd ++ ' ' :: v1) := findAlias_addOrUpdateAlias_same _ _ _
    have hfull : List.intercalate [' '] [cmd ++ ' ' :: v1] = List.intercalate [' '] [cmd, v1] := by
      rw [intercalate_space_single, hjoin]
    have ha : alias_substitution env2 (addOrUpdateAlias sh.alias_list n (cmd ++ ' ' :: v1)) n []
        = some [cmd, v1] := by
      rw [alias_substitution_hit env2 _ n (cmd ++ ' ' :: v1) [] hfind
        (by rw [intercalate_space_single]; simp only [List.length_append, List.length_cons]; omega),
        hfull,
        parse_command_words [cmd, v1]
          (by simpa using ⟨⟨hcmd.1, hcmd.2.1⟩, ⟨hv1.1, hv1.2.1⟩⟩) (by simp [MAX_ARGS])]
      exact substitute_plain env2 [cmd, v1] (by simpa using ⟨hcmd.2.2.1, hv1.2.2.1⟩)
    have hr : resolve_redirection os.open_ok [cmd, v1] = Redirection.proceed [cmd, v1] none :=
      resolve_redirection_none os.open_ok [cmd, v1] (by
        simp only [List.mem_cons, List.mem_singleton, List.not_mem_nil, or_false, not_or]
        exact ⟨fun e => hcmd.2.2.2 e.symm, fun e => hv1.2.2.2 e.symm⟩)
    rw [execute_command_external os _ n [n] [] [cmd, v1] n hp hs hnb.1 hnb.2.1 hnb.2.2 ha, hr]
    simp only [hfork, if_true]

/-- Witness for C7: the theorem applied to concrete input, with its hypotheses
discharged by evaluation. -/
theorem alias_definition_time_expansion_witness :
    execute_command { open_ok := fun _ => true, fork_ok := true }
        { alias_list := [], env := [("V".toList, "one".toList)], out := [], err := [] }
        "alias n cmd $V".toList
      = some ({ alias_list := [{ name := "n".toList, command := "cmd one".toList }],
                env := [("V".toList, "one".toList)], out := [], err := [] },
              Outcome.builtin) ∧
    execute_command { open_ok := fun _ => true, fork_ok := true }
        { alias_list := [{ name := "n".toList, command := "cmd one".toList }],
          env := [("V".toList, "two".toList)], out := [], err := [] }
        "n".toList
      = some ({ alias_list := [{ name := "n".toList, command := "cmd one".toList }],
                env := [("V".toList, "two".toList)], out := [], err := [] },
              Outcome.spawned ["cmd".toList, "one".toList] none) :=
  ⟨(alias_definition_time_expansion { open_ok := fun _ => true, fork_ok := true }
      { alias_list := [], env := [("V".toList, "one".toList)], out := [], err := [] }
      "n".toList "cmd".toList "V".toList "one".toList rfl (by decide) (by decide) (by decide)
      (by decide) (by decide) (by decide) (by decide)).1,
   (alias_definition_time_expansion { open_ok := fun _ => true, fork_ok := true }
      { alias_list := [], env := [("V".toList, "one".toList)], out := [], err := [] }
      "n".toList "cmd".toList "V".toList "one".toList rfl (by decide) (by decide) (by decide)
      (by decide) (by decide) (by decide) (by decide)).2 [("V".toList, "two".toList)]⟩

/-- C8 as stated fails: with the alias `n` storing 300 letters `a` and one
argument of 300 letters `b`, the combined command has 601 characters and does
not fit `full_cmd[MAX_LINE]`, so the alias step has no defined result, although
tokenizing and expanding the combined command gives the two tokens. -/
theorem alias_substitution_every_length_counterexample :
    findAlias [{ name := ['n'], command := List.replicate 300 'a' }] ['n']
      = some (List.replicate 300 'a') ∧
    alias_substitution [] [{ name := ['n'], command := List.replicate 300 'a' }] ['n']
      [List.replicate 300 'b'] = none ∧
    (parse_command
        (List.intercalate [' '] [List.replicate 300 'a', List.replicate 300 'b'])).bind
      (substitute_environment_variables [])
      = some [List.replicate 300 'a', List.replicate 300 'b'] := by
  exact ⟨rfl, alias_substitution_long_runs 300 300 (by decide) (by decide),
    retokenize_long_runs 300 300 (by decide) (by decide)⟩

/-- C8 (amended): in the alias step, when the table has no entry for the first
token the sequence proceeds unchanged; when it has an entry with stored command
c and the combined command c, a1, ..., am joined by single spaces has at most
`MAX_LINE - 1 = 511` characters, the step yields exactly the expansion (under
the current environment) of the tokens `parse_command` finds in that combined
command. -/
theorem alias_substitution_step (env : Env) (alias_list : List AliasNode)
    (t0 : CStr) (args : List CStr) :
    (findAlias alias_list t0 = none →
      alias_substitution env alias_list t0 args = some (t0 :: args)) ∧
    (∀ c, findAlias alias_list t0 = some c →
      (List.intercalate [' '] (c :: args)).length < MAX_LINE →
      alias_substitution env alias_list t0 args
        = (parse_command (List.intercalate [' '] (c :: args))).bind
            (substitute_environment_variables env)) :=
  ⟨alias_substitution_miss env alias_list t0 args,
   fun c hfind hlen => alias_substitution_hit env alias_list t0 c args hfind hlen⟩

/-- Witness for C8: the theorem applied to concrete input, with its hypotheses
discharged by evaluation. -/
theorem alias_substitution_step_witness :
    alias_substitution [("D".toList, "/tmp".toList)]
        [{ name := "ll".toList, command := "ls -l $D".toList }] "cat".toList ["f".toList]
      = some ["cat".toList, "f".toList] ∧
    alias_substitution [("D".toList, "/tmp".toList)]
        [{ name := "ll".toList, command := "ls -l $D".toList }] "ll".toList
        ["a".toList, "b".toList]
      = (parse_command "ls -l $D a b".toList).bind
          (substitute_environment_variables [("D".toList, "/tmp".toList)]) ∧
    (parse_command "ls -l $D a b".toList).bind
        (substitute_environment_variables [("D".toList, "/tmp".toList)])
      = some ["ls".toList, "-l".toList, "/tmp".toList, "a".toList, "b".toList] :=
  ⟨(alias_substitution_step _ _ "cat".toList ["f".toList]).1 (by decide),
   (alias_substitution_step [("D".toList, "/tmp".toList)]
      [{ name := "ll".toList, command := "ls -l $D".toList }] "ll".toList
      ["a".toList, "b".toList]).2 "ls -l $D".toList (by decide) (by decide),
   by decide⟩

/-- C10 (redirection resolution): scanning any token sequence, a sequence without
a token equal to `>` goes to the launcher whole and with no output file; when
the first `>` is followed by a token and the file opens, that next token is
the target path and the launcher's vector is exactly the tokens before that
first `>`, whatever follows the path (later `>` tokens included). -/
theorem resolve_redirection_first_operator (open_ok : CStr → Bool) (argv : List CStr) :
    (">".toList ∉ argv →
      resolve_redirection open_ok argv = Redirection.proceed argv none) ∧
    (∀ (pre post : List CStr) (path : CStr),
      argv = pre ++ ">".toList :: path :: post → ">".toList ∉ pre → open_ok path = true →
      resolve_redirection open_ok argv = Redirection.proceed pre (some path)) := by
  constructor
  · intro h
    have := resolve_redirection_loop_skip open_ok [] argv [] h
    simpa [resolve_redirection, resolve_redirection_loop] using this
  · intro pre post path hargv hpre hopen
    subst hargv
    rw [resolve_redirection, resolve_redirection_loop_skip open_ok [] pre _ hpre]
    simp [resolve_redirection_loop, hopen]

/-- Witness for C10: the theorem applied to concrete input, with its hypotheses
discharged by evaluation. -/
theorem resolve_redirection_first_operator_witness :
    resolve_redirection (fun _ => true) ["echo".toList, "hi".toList]
      = Redirection.proceed ["echo".toList, "hi".toList] none ∧
    resolve_redirection (fun _ => true)
        ["echo".toList, "hi".toList, ">".toList, "f".toList, ">".toList, "g".toList]
      = Redirection.proceed ["echo".toList, "hi".toList] (some "f".toList) ∧
    execute_command { open_ok := fun _ => true, fork_ok := true }
        { alias_list := [], env := [], out := [], err := [] } "echo hi > f > g".toList
      = some ({ alias_list := [], env := [], out := [], err := [] },
              Outcome.spawned ["echo".toList, "hi".toList] (some "f".toList)) :=
  ⟨(resolve_redirection_first_operator (fun _ => true) ["echo".toList, "hi".toList]).1
      (by decide),
   (resolve_redirection_first_operator (fun _ => true)
      ["echo".toList, "hi".toList, ">".toList, "f".toList, ">".toList, "g".toList]).2
      ["echo".toList, "hi".toList] [">".toList, "g".toList] "f".toList rfl (by decide) rfl,
   by decide⟩

/-- C11 (redirection error): when the token sequence that comes out of the alias
step has its first `>` as last token, or has a token after its first `>` that
names a file which cannot be opened, the redirection scan fails and
`execute_command` writes "Redirection error" to stderr and returns before
`fork`: nothing is spawned, and the alias table, the environment and stdout
are as before. -/
theorem execute_command_redirection_error (os : OS) (sh : Shell) (line arg0 : CStr)
    (parsed args argv : List CStr)
    (hp : parse_command line = some parsed)
    (hs : substitute_environment_variables sh.env parsed = some (arg0 :: args))
    (hnb : arg0 ≠ "alias".toList ∧ arg0 ≠ "export".toList ∧ arg0 ≠ "unset".toList)
    (ha : alias_substitution sh.env sh.alias_list arg0 args = some argv)
    (hshape : (∃ pre, argv = pre ++ [">".toList] ∧ ">".toList ∉ pre) ∨
      (∃ pre path post, argv = pre ++ ">".toList :: path :: post ∧ ">".toList ∉ pre ∧
        os.open_ok path = false)) :
    resolve_redirection os.open_ok argv = Redirection.error ∧
    execute_command os sh line
      = some ({ alias_list := sh.alias_list, env := sh.env, out := sh.out,
                err := sh.err ++ ["Redirection error\n".toList] },
              Outcome.redirection_error) := by
  have hr : resolve_redirection os.open_ok argv = Redirection.error := by
    rcases hshape with ⟨pre, rfl, hpre⟩ | ⟨pre, path, post, rfl, hpre, hopen⟩
    · exact resolve_redirection_operator_last os.open_ok pre hpre
    · exact resolve_redirection_open_fails os.open_ok pre post path hpre hopen
  refine ⟨hr, ?_⟩
  rw [execute_command_external os sh line parsed args argv arg0 hp hs hnb.1 hnb.2.1 hnb.2.2 ha,
    hr]

/-- Witness for C11: the theorem applied to concrete input, with its hypotheses
discharged by evaluation. -/
theorem execute_command_redirection_error_witness :
    (resolve_redirection (fun path => decide (path = "ok".toList))
        ["echo".toList, "hi".toList, ">".toList] = Redirection.error ∧
     execute_command { open_ok := fun path => decide (path = "ok".toList), fork_ok := true }
        { alias_list := [{ name := "e".toList, command := "echo hi".toList }],
          env := [("A".toList, "b".toList)], out := [], err := [] } "e >".toList
      = some ({ alias_list := [{ name := "e".toList, command := "echo hi".toList }],
                env := [("A".toList, "b".toList)], out := [],
                err := ["Redirection error\n".toList] },
              Outcome.redirection_error)) ∧
    (resolve_redirection (fun path => decide (path = "ok".toList))
        ["ls".toList, ">".toList, "bad".toList, "ok".toList] = Redirection.error ∧
     execute_command { open_ok := fun path => decide (path = "ok".toList), fork_ok := true }
        { alias_list := [], env := [], out := [], err := [] } "ls > bad ok".toList
      = some ({ alias_list := [], env := [], out := [],
                err := ["Redirection error\n".toList] },
              Outcome.redirection_error)) :=
  ⟨execute_command_redirection_error
      { open_ok := fun path => decide (path = "ok".toList), fork_ok := true }
      { alias_list := [{ name := "e".toList, command := "echo hi".toList }],
        env := [("A".toList, "b".toList)], out := [], err := [] }
      "e >".toList "e".toList ["e".toList, ">".toList] [">".toList]
      ["echo".toList, "hi".toList, ">".toList] (by decide) (by decide) (by decide) (by decide)
      (Or.inl ⟨["echo".toList, "hi".toList], rfl, by decide⟩),
   execute_command_redirection_error
      { open_ok := fun path => decide (path = "ok".toList), fork_ok := true }
      { alias_list := [], env := [], out := [], err := [] }
      "ls > bad ok".toList "ls".toList
      ["ls".toList, ">".toList, "bad".toList, "ok".toList]
      [">".toList, "bad".toList, "ok".toList]
      ["ls".toList, ">".toList, "bad".toList, "ok".toList] (by decide) (by decide) (by decide)
      (by decide)
      (Or.inr ⟨["ls".toList], "bad".toList, ["ok".toList], rfl, by decide, by decide⟩)⟩

/-- C12 (builtin precedence): when the first token of a line after expansion is
`alias`, `export` or `unset`, `execute_command` returns what the corresponding
handler makes of the expanded tokens, with the builtin outcome: the alias
step (lookup of the first token and substitution), the redirection scan and
`fork` are not performed.  The alias table is arbitrary, so an entry named
like a builtin changes nothing. -/
theorem execute_command_builtin_first (os : OS) (sh : Shell) (line t0 : CStr)
    (parsed args : List CStr)
    (hp : parse_command line = some parsed)
    (hs : substitute_environment_variables sh.env parsed = some (t0 :: args)) :
    (t0 = "alias".toList →
      ∃ sh1, handle_alias sh (t0 :: args) = some sh1 ∧
        execute_command os sh line = some (sh1, Outcome.builtin)) ∧
    (t0 = "export".toList →
      execute_command os sh line = some (handle_export sh (t0 :: args), Outcome.builtin)) ∧
    (t0 = "unset".toList →
      execute_command os sh line = some (handle_unset sh (t0 :: args), Outcome.builtin)) := by
  refine ⟨?_, ?_, ?_⟩
  · intro h
    subst h
    obtain ⟨sh1, h1⟩ := handle_alias_total sh "alias".toList args
    exact ⟨sh1, h1, by rw [execute_command_alias_builtin os sh line parsed args hp hs, h1]; rfl⟩
  · intro h
    subst h
    exact execute_command_export_builtin os sh line parsed args hp hs
  · intro h
    subst h
    exact execute_command_unset_builtin os sh line parsed args hp hs

/-- Witness for C12: the theorem applied to concrete input, with its hypotheses
discharged by evaluation. -/
theorem execute_command_builtin_first_witness :
    (∃ sh1, handle_alias
        { alias_list := [{ name := "alias".toList, command := "ls".toList }],
          env := [], out := [], err := [] } ["alias".toList]
        = some sh1 ∧
      execute_command { open_ok := fun _ => true, fork_ok := true }
        { alias_list := [{ name := "alias".toList, command := "ls".toList }],
          env := [], out := [], err := [] } "alias".toList
        = some (sh1, Outcome.builtin)) ∧
    execute_command { open_ok := fun _ => true, fork_ok := true }
        { alias_list := [{ name := "export".toList, command := "ls".toList }],
          env := [], out := [], err := [] } "export A=b > f".toList
      = some ({ alias_list := [{ name := "export".toList, command := "ls".toList }],
                env := [], out := [], err := ["Error: invalid export format\n".toList] },
              Outcome.builtin) ∧
    execute_command { open_ok := fun _ => true, fork_ok := true }
        { alias_list := [{ name := "unset".toList, command := "ls".toList }],
          env := [("A".toList, "b".toList)], out := [], err := [] } "unset A".toList
      = some ({ alias_list := [{ name := "unset".toList, command := "ls".toList }],
                env := [], out := [], err := [] },
              Outcome.builtin) :=
  ⟨(execute_command_builtin_first { open_ok := fun _ => true, fork_ok := true }
      { alias_list := [{ name := "alias".toList, command := "ls".toList }],
        env := [], out := [], err := [] }
      "alias".toList "alias".toList ["alias".toList] [] (by decide) (by decide)).1 rfl,
   (execute_command_builtin_first { open_ok := fun _ => true, fork_ok := true }
      { alias_list := [{ name := "export".toList, command := "ls".toList }],
        env := [], out := [], err := [] }
      "export A=b > f".toList "export".toList
      ["export".toList, "A=b".toList, ">".toList, "f".toList]
      ["A=b".toList, ">".toList, "f".toList] (by decide) (by decide)).2.1 rfl,
   (execute_command_builtin_first { open_ok := fun _ => true, fork_ok := true }
      { alias_list := [{ name := "unset".toList, command := "ls".toList }],
        env := [("A".toList, "b".toList)], out := [], err := [] }
      "unset A".toList "unset".toList ["unset".toList, "A".toList] ["A".toList]
      (by decide) (by decide)).2.2 rfl⟩

/-- C13 on the code: the line `export A=b=c` binds A to `b`, not to the whole
value `b=c`, because the value is the second `strtok` token of the argument
and ends at the next `=`; likewise `export A==b` binds A to `b` and not to
`=b`. -/
theorem export_value_cut_at_equals :
    execute_command { open_ok := fun _ => true, fork_ok := true }
        { alias_list := [], env := [], out := [], err := [] } "export A=b=c".toList
      = some ({ alias_list := [], env := [("A".toList, "b".toList)], out := [], err := [] },
              Outcome.builtin) ∧
    getenv [("A".toList, "b".toList)] "A".toList ≠ some "b=c".toList ∧
    execute_command { open_ok := fun _ => true, fork_ok := true }
        { alias_list := [], env := [], out := [], err := [] } "export A==b".toList
      = some ({ alias_list := [], env := [("A".toList, "b".toList)], out := [], err := [] },
              Outcome.builtin) := by
  decide

/-- C14 on the code: the line `export =A=B`, whose part before the first `=` is
empty, is not rejected: no error is written and A is bound to `B`, because
`strtok` skips the leading `=`. -/
theorem export_empty_name_accepted :
    handle_export { alias_list := [], env := [], out := [], err := [] }
        ["export".toList, "=A=B".toList]
      = { alias_list := [], env := [("A".toList, "B".toList)], out := [], err := [] } ∧
    execute_command { open_ok := fun _ => true, fork_ok := true }
        { alias_list := [], env := [], out := [], err := [] } "export =A=B".toList
      = some ({ alias_list := [], env := [("A".toList, "B".toList)], out := [], err := [] },
              Outcome.builtin) := by
  decide

/-- C15 (unset): `handle_unset` on N1, ..., Nk with k >= 1 tries every name.  A
removal succeeds exactly when the name is non-empty and has no `=`.  Afterwards
every name of the list whose removal succeeded is unbound, so a token `$Ni`
expands to the empty string; every name outside the list keeps its binding;
"environment variable not present" is written once when some removal failed and
not at all when none did; the alias table and stdout are untouched.  With no
name at all the format error is written and the environment is unchanged. -/
theorem handle_unset_removes (sh : Shell) (arg0 n : CStr) (ns : List CStr) :
    (∀ env name, (unsetenv env name).2 = true ↔ (name ≠ [] ∧ '=' ∉ name)) ∧
    (∀ name ∈ n :: ns, name ≠ [] → '=' ∉ name →
      getenv (handle_unset sh (arg0 :: n :: ns)).env name = none ∧
      (name.length < MAX_LINE →
        substitute_environment_variables (handle_unset sh (arg0 :: n :: ns)).env
          ['$' :: name] = some [[]])) ∧
    (∀ name, name ∉ n :: ns →
      getenv (handle_unset sh (arg0 :: n :: ns)).env name = getenv sh.env name) ∧
    ((∃ name ∈ n :: ns, name = [] ∨ '=' ∈ name) →
      (handle_unset sh (arg0 :: n :: ns)).err
        = sh.err ++ ["unset: environment variable not present\n".toList]) ∧
    ((∀ name ∈ n :: ns, name ≠ [] ∧ '=' ∉ name) →
      (handle_unset sh (arg0 :: n :: ns)).err = sh.err) ∧
    ((handle_unset sh (arg0 :: n :: ns)).alias_list = sh.alias_list ∧
      (handle_unset sh (arg0 :: n :: ns)).out = sh.out) ∧
    handle_unset sh [arg0]
      = { sh with err := sh.err ++ ["Error: invalid unset format\n".toList] } := by
  have henv : (handle_unset sh (arg0 :: n :: ns)).env
      = (handle_unset_loop (n :: ns) sh.env false).1 := by
    simp only [handle_unset]
    split <;> rfl
  refine ⟨unsetenv_succeeds_iff, ?_, ?_, ?_, ?_, ?_, rfl⟩
  · intro name hmem hne heq
    have hnone : getenv (handle_unset sh (arg0 :: n :: ns)).env name = none := by
      rw [henv]
      exact handle_unset_loop_removed _ _ _ name hmem hne heq
    refine ⟨hnone, fun hlen => ?_⟩
    rw [substitute_cons_dollar _ name [] hlen, libc_getenv_no_equals _ name heq, hnone]
    rfl
  · intro name hmem
    rw [henv]
    exact handle_unset_loop_other _ _ _ name hmem
  · intro hbad
    have : (handle_unset_loop (n :: ns) sh.env false).2 = true :=
      (handle_unset_loop_error _ _ _).2 (Or.inr hbad)
    simp only [handle_unset, this, if_true]
  · intro hgood
    have : ¬ (handle_unset_loop (n :: ns) sh.env false).2 = true := by
      intro h
      rcases (handle_unset_loop_error _ _ _).1 h with h | ⟨name, hm, hn⟩
      · exact Bool.noConfusion h
      · rcases hn with hn | hn
        · exact (hgood name hm).1 hn
        · exact (hgood name hm).2 hn
    simp [handle_unset, this]
  · simp only [handle_unset]
    split <;> exact ⟨rfl, rfl⟩

/-- Witness for C15: the theorem applied to concrete input, with its hypotheses
discharged by evaluation. -/
theorem handle_unset_removes_witness :
    (getenv (handle_unset
        { alias_list := [], env := [("A".toList, "1".toList), ("B".toList, "2".toList),
            ("C".toList, "3".toList)], out := [], err := [] }
        ["unset".toList, "A".toList, "x=y".toList, "C".toList]).env "C".toList = none ∧
     ("C".toList.length < MAX_LINE →
      substitute_environment_variables (handle_unset
        { alias_list := [], env := [("A".toList, "1".toList), ("B".toList, "2".toList),
            ("C".toList, "3".toList)], out := [], err := [] }
        ["unset".toList, "A".toList, "x=y".toList, "C".toList]).env ['$' :: "C".toList]
        = some [[]])) ∧
    getenv (handle_unset
        { alias_list := [], env := [("A".toList, "1".toList), ("B".toList, "2".toList),
            ("C".toList, "3".toList)], out := [], err := [] }
        ["unset".toList, "A".toList, "x=y".toList, "C".toList]).env "B".toList
      = some "2".toList ∧
    (handle_unset
        { alias_list := [], env := [("A".toList, "1".toList), ("B".toList, "2".toList),
            ("C".toList, "3".toList)], out := [], err := [] }
        ["unset".toList, "A".toList, "x=y".toList, "C".toList]).err
      = ["unset: environment variable not present\n".toList] ∧
    (handle_unset
        { alias_list := [], env := [("A".toList, "1".toList)], out := [], err := [] }
        ["unset".toList, "A".toList]).err = [] :=
  ⟨(handle_unset_removes _ "unset".toList "A".toList ["x=y".toList, "C".toList]).2.1
      "C".toList (by decide) (by decide) (by decide),
   (handle_unset_removes
      { alias_list := [], env := [("A".toList, "1".toList), ("B".toList, "2".toList),
          ("C".toList, "3".toList)], out := [], err := [] }
      "unset".toList "A".toList ["x=y".toList, "C".toList]).2.2.1 "B".toList (by decide),
   (handle_unset_removes
      { alias_list := [], env := [("A".toList, "1".toList), ("B".toList, "2".toList),
          ("C".toList, "3".toList)], out := [], err := [] }
      "unset".toList "A".toList ["x=y".toList, "C".toList]).2.2.2.1
      ⟨"x=y".toList, by decide, Or.inr (by decide)⟩,
   (handle_unset_removes
      { alias_list := [], env := [("A".toList, "1".toList)], out := [], err := [] }
      "unset".toList "A".toList []).2.2.2.2.1 (by decide)⟩

/-- C16 (expansion precedes alias lookup and spawn): the line `export NAME=VALUE`
(NAME and VALUE non-empty words without space or `=`, NAME not starting with
`$` and shorter than `MAX_LINE`, VALUE not starting with `$`) binds NAME to
VALUE; from then on expansion turns the token `$NAME` into VALUE, and any line
is processed by `execute_command` exactly as the line whose tokens are the
same except that every token `$NAME` is written as VALUE: same alias lookup
on the first token, same vector for the launcher, same resulting state. -/
theorem expansion_precedes_lookup (os : OS) (sh : Shell) (name value line1 line2 : CStr)
    (hname : name ≠ [] ∧ ' ' ∉ name ∧ '=' ∉ name ∧ name.head? ≠ some '$' ∧
      name.length < MAX_LINE)
    (hvalue : value ≠ [] ∧ ' ' ∉ value ∧ '=' ∉ value ∧ value.head? ≠ some '$')
    (h : parse_command line2
        = (parse_command line1).map
            (List.map (fun t => if t = '$' :: name then value else t))) :
    execute_command os sh (List.intercalate [' '] ["export".toList, name ++ '=' :: value])
      = some ({ sh with env := setenv sh.env name value }, Outcome.builtin) ∧
    getenv (setenv sh.env name value) name = some value ∧
    (∀ rest, substitute_environment_variables (setenv sh.env name value)
        (('$' :: name) :: rest)
      = (substitute_environment_variables (setenv sh.env name value) rest).map
          (fun done => value :: done)) ∧
    execute_command os { sh with env := setenv sh.env name value } line1
      = execute_command os { sh with env := setenv sh.env name value } line2 := by
  have hget : getenv (setenv sh.env name value) name = some value :=
    getenv_setenv_same sh.env name value hname.1 hname.2.2.1
  refine ⟨?_, hget, ?_, ?_⟩
  · exact execute_command_export_line os sh name value
      ⟨hname.1, hname.2.1, hname.2.2.1, hname.2.2.2.1⟩ ⟨hvalue.1, hvalue.2.1, hvalue.2.2.1⟩
  · intro rest
    rw [substitute_cons_dollar _ name rest hname.2.2.2.2,
      libc_getenv_of_getenv _ name value hget]
    rfl
  · exact execute_command_same_expansion os _ line1 line2 _ h
      (fun parsed => substitute_replace_reference _ name value parsed hget hname.2.2.2.2
        hvalue.2.2.2)

/-- Witness for C16: the theorem applied to concrete input, with its hypotheses
discharged by evaluation. -/
theorem expansion_precedes_lookup_witness :
    (execute_command { open_ok := fun _ => true, fork_ok := true }
        { alias_list := [{ name := "bar".toList, command := "ls -l".toList }],
          env := [], out := [], err := [] } "export FOO=bar".toList
      = some ({ alias_list := [{ name := "bar".toList, command := "ls -l".toList }],
                env := [("FOO".toList, "bar".toList)], out := [], err := [] },
              Outcome.builtin) ∧
     getenv [("FOO".toList, "bar".toList)] "FOO".toList = some "bar".toList ∧
     (∀ rest, substitute_environment_variables [("FOO".toList, "bar".toList)]
         ("$FOO".toList :: rest)
       = (substitute_environment_variables [("FOO".toList, "bar".toList)] rest).map
           (fun done => "bar".toList :: done)) ∧
     execute_command { open_ok := fun _ => true, fork_ok := true }
        { alias_list := [{ name := "bar".toList, command := "ls -l".toList }],
          env := [("FOO".toList, "bar".toList)], out := [], err := [] } "$FOO x $FOO".toList
      = execute_command { open_ok := fun _ => true, fork_ok := true }
        { alias_list := [{ name := "bar".toList, command := "ls -l".toList }],
          env := [("FOO".toList, "bar".toList)], out := [], err := [] } "bar x bar".toList) ∧
    execute_command { open_ok := fun _ => true, fork_ok := true }
        { alias_list := [{ name := "bar".toList, command := "ls -l".toList }],
          env := [("FOO".toList, "bar".toList)], out := [], err := [] } "$FOO x $FOO".toList
      = some ({ alias_list := [{ name := "bar".toList, command := "ls -l".toList }],
                env := [("FOO".toList, "bar".toList)], out := [], err := [] },
              Outcome.spawned ["ls".toList, "-l".toList, "x".toList, "bar".toList] none) :=
  ⟨expansion_precedes_lookup { open_ok := fun _ => true, fork_ok := true }
      { alias_list := [{ name := "bar".toList, command := "ls -l".toList }],
        env := [], out := [], err := [] }
      "FOO".toList "bar".toList "$FOO x $FOO".toList "bar x bar".toList
      (by decide) (by decide) (by decide),
   by decide⟩

/-- C17 as stated fails: started with two arguments, `main` writes no usage
error and runs the interactive loop on standard input: it prompts, and the
line `alias x y` is processed. -/
theorem main_usage_error_counterexample :
    main { open_ok := fun _ => true, fork_ok := true } (fun _ => none) "alias x y\n".toList []
        ["a".toList, "b".toList]
      = some { sh := { alias_list := [{ name := "x".toList, command := "y".toList }],
                       env := [], out := ["wish> ".toList, "wish> ".toList], err := [] },
               trace := [Outcome.builtin], how := Termination.exited 0 } := by
  decide

/-- C17 (amended): with no argument `main` runs the interactive loop on standard
input; with exactly one argument it runs the batch loop on that file, and ends
at once with status 1 and the message "could not open batch file" when the
file cannot be opened; with more than one argument it behaves exactly as with
none: interactive, no usage error, the arguments ignored.  Every run
ends. -/
theorem main_mode_selection (os : OS) (fopen_r : CStr → Option CStr) (stdin : CStr)
    (env : Env) :
    main os fopen_r stdin env []
      = main_loop os true (stdin.length + 1) stdin
          { alias_list := [], env := env, out := [], err := [] } [] ∧
    (∀ file, fopen_r file = none →
      main os fopen_r stdin env [file]
        = some { sh := { alias_list := [], env := env, out := [],
                         err := ["Error: could not open batch file\n".toList] },
                 trace := [], how := Termination.exited 1 }) ∧
    (∀ file content, fopen_r file = some content →
      main os fopen_r stdin env [file]
        = main_loop os false (content.length + 1) content
            { alias_list := [], env := env, out := [], err := [] } []) ∧
    (∀ a b rest, main os fopen_r stdin env (a :: b :: rest) = main os fopen_r stdin env []) ∧
    (∀ args, ∃ r, main os fopen_r stdin env args = some r) := by
  refine ⟨rfl, ?_, ?_, fun _ _ _ => rfl, ?_⟩
  · intro file h
    simp only [main, h]
  · intro file content h
    simp only [main, h]
  · intro args
    match args with
    | [] => exact main_loop_ends os true _ stdin _ _ (Nat.lt_succ_self _)
    | [file] =>
      cases h : fopen_r file with
      | none =>
        simp only [main, h]
        exact ⟨_, rfl⟩
      | some content =>
        simp only [main, h]
        exact main_loop_ends os false _ content _ _ (Nat.lt_succ_self _)
    | _ :: _ :: _ => exact main_loop_ends os true _ stdin _ _ (Nat.lt_succ_self _)

/-- Witness for C17: the theorem applied to concrete input, with its hypotheses
discharged by evaluation. -/
theorem main_mode_selection_witness :
    main { open_ok := fun _ => true, fork_ok := true }
        (fun path => if path = "script".toList then some "alias x y\nexit\n".toList else none)
        "ignored\n".toList [] ["missing".toList]
      = some { sh := { alias_list := [], env := [], out := [],
                       err := ["Error: could not open batch file\n".toList] },
               trace := [], how := Termination.exited 1 } ∧
    main { open_ok := fun _ => true, fork_ok := true }
        (fun path => if path = "script".toList then some "alias x y\nexit\n".toList else none)
        "ignored\n".toList [] ["script".toList]
      = main_loop { open_ok := fun _ => true, fork_ok := true } false
          ("alias x y\nexit\n".toList.length + 1) "alias x y\nexit\n".toList
          { alias_list := [], env := [], out := [], err := [] } [] ∧
    main { open_ok := fun _ => true, fork_ok := true }
        (fun path => if path = "script".toList then some "alias x y\nexit\n".toList else none)
        "ignored\n".toList [] ["script".toList]
      = some { sh := { alias_list := [{ name := "x".toList, command := "y".toList }],
                       env := [], out := ["alias x y\n".toList, "exit\n".toList], err := [] },
               trace := [Outcome.builtin], how := Termination.exited 0 } :=
  ⟨(main_mode_selection { open_ok := fun _ => true, fork_ok := true }
      (fun path => if path = "script".toList then some "alias x y\nexit\n".toList else none)
      "ignored\n".toList []).2.1 "missing".toList (by decide),
   (main_mode_selection { open_ok := fun _ => true, fork_ok := true }
      (fun path => if path = "script".toList then some "alias x y\nexit\n".toList else none)
      "ignored\n".toList []).2.2.1 "script".toList "alias x y\nexit\n".toList (by decide),
   by decide⟩

/-- C18 on the code: the line `> f` passes the checks of `main` (it is not empty
and starts with `>`), the redirection scan cuts the vector at index 0, and the
child is created with an empty vector, so `execvp` is called with the `NULL`
that ends the vector as argument 0.  The same happens after alias substitution
with an alias whose stored command is empty, here defined by `alias e $U` with
U unset. -/
theorem launcher_reached_with_empty_vector :
    main { open_ok := fun _ => true, fork_ok := true } (fun _ => none) "> f\n".toList [] []
      = some { sh := { alias_list := [], env := [],
                       out := ["wish> ".toList, "wish> ".toList], err := [] },
               trace := [Outcome.spawned [] (some "f".toList)],
               how := Termination.exited 0 } ∧
    main { open_ok := fun _ => true, fork_ok := true } (fun _ => none)
        "alias e $U\ne\n".toList [] []
      = some { sh := { alias_list := [{ name := "e".toList, command := [] }], env := [],
                       out := ["wish> ".toList, "wish> ".toList, "wish> ".toList],
                       err := [] },
               trace := [Outcome.builtin, Outcome.spawned [] none],
               how := Termination.exited 0 } := by
  decide

/-- C19 on the code: the line made of 64 one-letter words separated by single
spaces has 127 characters, well within what `fgets` delivers, and 64 tokens;
`parse_command` stores the terminating `NULL` at index 64 of its 64-slot array,
so it has no defined result, and a run of `main` that reads this line leaves
defined behaviour there. -/
theorem argv_capacity_exceeded :
    (List.intercalate [' '] (List.replicate 64 ['a'])).length = 127 ∧
    (List.intercalate [' '] (List.replicate 64 ['a'])).length < MAX_LINE ∧
    (space_free_runs (List.intercalate [' '] (List.replicate 64 ['a']))).length
      = MAX_ARGS ∧
    parse_command (List.intercalate [' '] (List.replicate 64 ['a'])) = none ∧
    (main { open_ok := fun _ => true, fork_ok := true } (fun _ => none)
        (List.intercalate [' '] (List.replicate 64 ['a']) ++ [Char.ofNat 10]) [] []).map
        (fun r => (r.trace, r.how))
      = some ([], Termination.undefined) := by
  set_option maxRecDepth 20000 in decide

/-- C20 as stated fails: with the alias `n` defined as `w` and 63 arguments `a`,
all plain one-letter tokens, the line `n a ... a` has 64 tokens and
`execute_command` has no defined result on it; likewise `parse_command` on the
single-space join of the 64 tokens `w a ... a` does not return them. -/
theorem alias_transparency_counterexample :
    execute_command { open_ok := fun _ => true, fork_ok := true }
        { alias_list := [], env := [], out := [], err := [] } "alias n w".toList
      = some ({ alias_list := [{ name := ['n'], command := ['w'] }], env := [], out := [],
                err := [] }, Outcome.builtin) ∧
    execute_command { open_ok := fun _ => true, fork_ok := true }
        { alias_list := [{ name := ['n'], command := ['w'] }], env := [], out := [],
          err := [] }
        (List.intercalate [' '] (['n'] :: List.replicate 63 ['a'])) = none ∧
    parse_command (List.intercalate [' '] (['w'] :: List.replicate 63 ['a'])) = none ∧
    parse_command (List.intercalate [' '] (['w'] :: List.replicate 63 ['a']))
      ≠ some (['w'] :: List.replicate 63 ['a']) := by
  decide

/-- C20 (amended): let NAME, W1..Wk (k >= 1) and A1..Am be non-empty tokens
without spaces that do not start with `$`, NAME not a builtin name, with at
most 63 tokens in the defining line (k + 2 < `MAX_ARGS`), at most 63 tokens
W1..Wk A1..Am, and fewer than `MAX_LINE` characters in their single-space join.
Then `alias NAME W1 ... Wk` stores the join of W1..Wk, the line
`NAME A1 ... Am` is tokenized and expanded to `[NAME, A1, ..., Am]`, and the
alias step turns it into exactly `[W1, ..., Wk, A1, ..., Am]`; and
`parse_command` applied to the single-space join of these tokens returns
them. -/
theorem alias_transparency (os : OS) (sh : Shell) (name w : CStr) (ws args : List CStr)
    (hname : name ≠ [] ∧ ' ' ∉ name ∧ name.head? ≠ some '$')
    (hnb : name ≠ "alias".toList ∧ name ≠ "export".toList ∧ name ≠ "unset".toList)
    (hw : ∀ t ∈ w :: ws, t ≠ [] ∧ ' ' ∉ t ∧ t.head? ≠ some '$')
    (ha : ∀ t ∈ args, t ≠ [] ∧ ' ' ∉ t ∧ t.head? ≠ some '$')
    (hcap1 : (w :: ws).length + 2 < MAX_ARGS)
    (hcap2 : (w :: ws ++ args).length < MAX_ARGS)
    (hlen : (List.intercalate [' '] (w :: ws ++ args)).length < MAX_LINE) :
    execute_command os sh (List.intercalate [' '] ("alias".toList :: name :: w :: ws))
      = some ({ sh with alias_list :=
                  addOrUpdateAlias sh.alias_list name (List.intercalate [' '] (w :: ws)) },
              Outcome.builtin) ∧
    (∀ env2 : Env,
      parse_command (List.intercalate [' '] (name :: args)) = some (name :: args) ∧
      substitute_environment_variables env2 (name :: args) = some (name :: args) ∧
      alias_substitution env2
          (addOrUpdateAlias sh.alias_list name (List.intercalate [' '] (w :: ws))) name args
        = some (w :: ws ++ args)) ∧
    parse_command (List.intercalate [' '] (w :: ws ++ args)) = some (w :: ws ++ args) := by
  have hall : ∀ t ∈ w :: ws ++ args, t ≠ [] ∧ ' ' ∉ t ∧ t.head? ≠ some '$' := by
    intro t ht
    rcases List.mem_append.1 ht with h | h
    · exact hw t h
    · exact ha t h
  have hparse : parse_command (List.intercalate [' '] (w :: ws ++ args))
      = some (w :: ws ++ args) :=
    parse_command_words _ (fun t ht => ⟨(hall t ht).1, (hall t ht).2.1⟩) hcap2
  refine ⟨?_, ?_, hparse⟩
  · have hp : parse_command (List.intercalate [' '] ("alias".toList :: name :: w :: ws))
        = some ("alias".toList :: name :: w :: ws) := by
      apply parse_command_words
      · intro t ht
        rcases List.mem_cons.1 ht with h | h
        · subst h; decide
        · rcases List.mem_cons.1 h with h | h
          · subst h; exact ⟨hname.1, hname.2.1⟩
          · exact ⟨(hw t h).1, (hw t h).2.1⟩
      · simp only [List.length_cons] at hcap1 ⊢
        omega
    have hs : substitute_environment_variables sh.env ("alias".toList :: name :: w :: ws)
        = some ("alias".toList :: (name :: w :: ws)) := by
      apply substitute_plain
      intro t ht
      rcases List.mem_cons.1 ht with h | h
      · subst h; decide
      · rcases List.mem_cons.1 h with h | h
        · subst h; exact hname.2.2
        · exact (hw t h).2.2
    rw [execute_command_alias_builtin os sh _ _ _ hp hs, handle_alias_define]
    rfl
  · intro env2
    have hargs : args.length + 1 < MAX_ARGS := by
      simp only [List.length_cons, List.length_append] at hcap2 ⊢
      omega
    refine ⟨?_, ?_, ?_⟩
    · apply parse_command_words
      · intro t ht
        rcases List.mem_cons.1 ht with h | h
        · subst h; exact ⟨hname.1, hname.2.1⟩
        · exact ⟨(ha t h).1, (ha t h).2.1⟩
      · simpa using hargs
    · apply substitute_plain
      intro t ht
      rcases List.mem_cons.1 ht with h | h
      · subst h; exact hname.2.2
      · exact (ha t h).2.2
    · rw [alias_substitution_hit env2 _ name (List.intercalate [' '] (w :: ws)) args
        (findAlias_addOrUpdateAlias_same _ _ _)
        (by rw [intercalate_space_nested]; exact hlen),
        intercalate_space_nested, hparse]
      exact substitute_plain env2 _ (fun t ht => (hall t ht).2.2)

/-- Witness for C20: the theorem applied to concrete input, with its hypotheses
discharged by evaluation. -/
theorem alias_transparency_witness :
    execute_command { open_ok := fun _ => true, fork_ok := true }
        { alias_list := [], env := [], out := [], err := [] } "alias ll ls -l".toList
      = some ({ alias_list := [{ name := "ll".toList, command := "ls -l".toList }],
                env := [], out := [], err := [] }, Outcome.builtin) ∧
    (parse_command "ll a b".toList = some ["ll".toList, "a".toList, "b".toList] ∧
     substitute_environment_variables [] ["ll".toList, "a".toList, "b".toList]
       = some ["ll".toList, "a".toList, "b".toList] ∧
     alias_substitution [] [{ name := "ll".toList, command := "ls -l".toList }] "ll".toList
         ["a".toList, "b".toList]
       = some ["ls".toList, "-l".toList, "a".toList, "b".toList]) ∧
    parse_command "ls -l a b".toList
      = some ["ls".toList, "-l".toList, "a".toList, "b".toList] :=
  ⟨(alias_transparency { open_ok := fun _ => true, fork_ok := true }
      { alias_list := [], env := [], out := [], err := [] }
      "ll".toList "ls".toList ["-l".toList] ["a".toList, "b".toList]
      (by decide) (by decide) (by decide) (by decide) (by decide) (by decide)
      (by decide)).1,
   (alias_transparency { open_ok := fun _ => true, fork_ok := true }
      { alias_list := [], env := [], out := [], err := [] }
      "ll".toList "ls".toList ["-l".toList] ["a".toList, "b".toList]
      (by decide) (by decide) (by decide) (by decide) (by decide) (by decide)
      (by decide)).2.1 [],
   (alias_transparency { open_ok := fun _ => true, fork_ok := true }
      { alias_list := [], env := [], out := [], err := [] }
      "ll".toList "ls".toList ["-l".toList] ["a".toList, "b".toList]
      (by decide) (by decide) (by decide) (by decide) (by decide) (by decide)
      (by decide)).2.2⟩

end WiscShell
